import Mathlib

/-!
Verification of the clustered Sugiyama layering core
(`src/OGDF/src/ogdf/layered/sugiyama-cluster.cpp`).

The development shallowly embeds the data model and the operations of the
source file: nodes are natural-number identifiers, graphs are explicit edge
lists, integer attributes (`aeLevel`, `rank`, `pos`) are functions to `Int`
or `Nat`, and every stateful routine of the source is translated into a pure
function threading its state.  Class members that are declared only in the
header `SugiyamaLayout.h` (which is not among the sources) are modelled from
the specification; each such definition is marked in its doc comment.
-/

/-- Modelled from the spec: the crossing-count pair `(cnClusters, cnEdges)`
(class `RCCrossings`, declared in `SugiyamaLayout.h`, which is not among the
sources).  The spec orders these pairs lexicographically; the fields are C++
`int`s, modelled as `Int`. -/
structure RCCrossings where
  cnClusters : Int
  cnEdges : Int
deriving DecidableEq, Repr

/-- Modelled from the spec: lexicographic strict order on crossing pairs
(`RCCrossings::operator<`). -/
def RCCrossings.lt (a b : RCCrossings) : Prop :=
  a.cnClusters < b.cnClusters ∨ (a.cnClusters = b.cnClusters ∧ a.cnEdges < b.cnEdges)

/-- Modelled from the spec: lexicographic order on crossing pairs
(`RCCrossings::operator<=`). -/
def RCCrossings.le (a b : RCCrossings) : Prop :=
  a.cnClusters < b.cnClusters ∨ (a.cnClusters = b.cnClusters ∧ a.cnEdges ≤ b.cnEdges)

instance (a b : RCCrossings) : Decidable (RCCrossings.lt a b) :=
  inferInstanceAs (Decidable (_ ∨ _))

instance (a b : RCCrossings) : Decidable (RCCrossings.le a b) :=
  inferInstanceAs (Decidable (_ ∨ _))

/-- Modelled from the spec: componentwise difference (`RCCrossings::operator-`). -/
def RCCrossings.sub (a b : RCCrossings) : RCCrossings :=
  ⟨a.cnClusters - b.cnClusters, a.cnEdges - b.cnEdges⟩

/-- Modelled from the spec: componentwise sum (`RCCrossings::operator+=`). -/
def RCCrossings.add (a b : RCCrossings) : RCCrossings :=
  ⟨a.cnClusters + b.cnClusters, a.cnEdges + b.cnEdges⟩

/-- Modelled from the spec: `isZero` means both counts are zero. -/
def RCCrossings.isZero (a : RCCrossings) : Bool :=
  a.cnClusters == 0 && a.cnEdges == 0

/-- Largest representable C++ `int` value, used by `RCCrossings::setInfinity`. -/
def RCCrossings.intMax : Int := 2147483647

/-- Modelled from the spec: `setInfinity` yields the maximum representable value. -/
def RCCrossings.infinity : RCCrossings := ⟨RCCrossings.intMax, RCCrossings.intMax⟩

/-- Lexicographic minimum of two crossing pairs. -/
def RCCrossings.minLex (a b : RCCrossings) : RCCrossings :=
  if RCCrossings.le a b then a else b

/-- Lexicographic maximum of two crossing pairs. -/
def RCCrossings.maxLex (a b : RCCrossings) : RCCrossings :=
  if RCCrossings.le a b then b else a

/-- Struct `RCEdge` from the source: a preference edge between two children of a
compound node, with its cost `m_cr` and reverse cost `m_crReverse`.  Children are
identified by their tentative position (a natural number). -/
structure RCEdge where
  src : Nat
  tgt : Nat
  cr : RCCrossings
  crReverse : RCCrossings
deriving DecidableEq, Repr

/-- Weight of a preference edge (source: `RCEdge::weight`), the componentwise
difference `m_crReverse - m_cr`. -/
def RCEdge.weight (e : RCEdge) : RCCrossings := e.crReverse.sub e.cr

/-- Orientation of the preference edge for the child pair `(j,k)` (source:
`ExtendedNestingGraph::reduceCrossings`, the loop that fills the list `edges`):
if `cn(j,k) <= cn(k,j)` the edge is `j -> k` with cost `cn(j,k)` and reverse cost
`cn(k,j)`, otherwise `k -> j` with the two costs swapped. -/
def orientPair (j k : Nat) (cjk ckj : RCCrossings) : RCEdge :=
  if RCCrossings.le cjk ckj then ⟨j, k, cjk, ckj⟩ else ⟨k, j, ckj, cjk⟩

/-- Modelled from the spec: the order in which `LocationRelationshipComparer`
(delegating to `RCCrossings::compare`, declared in `SugiyamaLayout.h`, not among
the sources) arranges preference edges; per the spec the edge with the largest
benefit `reverseCost - cost` of its preferred direction is attempted first, so an
edge comes before another when its weight is lexicographically at least the
other's. -/
def rcEdgeBefore (x y : RCEdge) : Prop := RCCrossings.le y.weight x.weight

instance (x y : RCEdge) : Decidable (rcEdgeBefore x y) :=
  inferInstanceAs (Decidable (RCCrossings.le _ _))

instance : IsTotal RCEdge rcEdgeBefore :=
  ⟨fun x y => by unfold rcEdgeBefore RCCrossings.le; omega⟩

instance : IsTrans RCEdge rcEdgeBefore :=
  ⟨fun a b c h1 h2 => by unfold rcEdgeBefore RCCrossings.le at h1 h2 ⊢; omega⟩

/-- Sorting step of `ExtendedNestingGraph::reduceCrossings` (the call
`edges.quicksort(cmp)` with `LocationRelationshipComparer`), modelled as a
sort with respect to `rcEdgeBefore`. -/
def sortByWeight (l : List RCEdge) : List RCEdge := List.insertionSort rcEdgeBefore l

/-- Edge-step relation of an explicit edge list. -/
def stepRel (E : List (Nat × Nat)) (a b : Nat) : Prop := (a, b) ∈ E

/-- One saturation step of the breadth-first search of
`ExtendedNestingGraph::reachable`: append to `S` (without duplicates) the
targets of all edges whose source is already in `S`. -/
def satStep (E : List (Nat × Nat)) (S : List Nat) : List Nat :=
  S ++ ((E.filter (fun e => decide (e.1 ∈ S ∧ e.2 ∉ S))).map Prod.snd).dedup

/-- Saturation loop: iterate `satStep` until a fixpoint is reached or the fuel
runs out. -/
def satRec (E : List (Nat × Nat)) : Nat → List Nat → List Nat
  | 0, S => S
  | n + 1, S =>
    let T := satStep E S
    if T = S then S else satRec E n T

/-- Set of vertices reachable from `v` along the edges of `E`, as collected by
the queue of `ExtendedNestingGraph::reachable` (the vertex `v` itself is pushed
first). -/
def reachSet (E : List (Nat × Nat)) (v : Nat) : List Nat :=
  satRec E (E.length + 1) [v]

/-- Breadth-first reachability test of the source
(`ExtendedNestingGraph::reachable(v, u, successors)`): returns `true` exactly
when `u` is reachable from `v` (the source returns `true` immediately when
`u = v`, and otherwise reports whether the search from `v` encounters `u`);
when it returns `false`, the successor list collected by the search holds every
vertex reachable from `v`, which is `reachSet E v`. -/
def reachable (E : List (Nat × Nat)) (v u : Nat) : Bool :=
  decide (u ∈ reachSet E v)

/-- State of the acyclicity-preserving edge adder: the growing edge list of the
extended nesting graph together with the tentative topological labeling
`m_aeLevel`. -/
structure AEGraph where
  edges : List (Nat × Nat)
  aeLevel : Nat → Int

/-- Translation of `ExtendedNestingGraph::addEdge(node u, node v, bool addAlways)`:
if `aeLevel u < aeLevel v`, the edge `(u,v)` is added directly; otherwise a
breadth-first search from `v` runs: if `u` is not reachable, every vertex
reachable from `v` (the collected successors) has its level raised by
`d = aeLevel u - aeLevel v + 1` and `(u,v)` is added; if `u` is reachable and
`addAlways` holds, the reversed edge `(v,u)` is added; otherwise no edge is
added.  Returns the added edge together with the new state, or `none`. -/
def addEdge (g : AEGraph) (u v : Nat) (addAlways : Bool) :
    Option ((Nat × Nat) × AEGraph) :=
  if g.aeLevel u < g.aeLevel v then
    some ((u, v), ⟨(u, v) :: g.edges, g.aeLevel⟩)
  else if reachable g.edges v u = false then
    some ((u, v), ⟨(u, v) :: g.edges,
      fun w => if w ∈ reachSet g.edges v then
        g.aeLevel w + (g.aeLevel u - g.aeLevel v + 1) else g.aeLevel w⟩)
  else if addAlways then
    some ((v, u), ⟨(v, u) :: g.edges, g.aeLevel⟩)
  else none

/-- Validity of the tentative topological labeling: every edge goes from a
vertex of strictly smaller `aeLevel` to one of strictly larger `aeLevel`. -/
def ValidLabeling (g : AEGraph) : Prop :=
  ∀ p ∈ g.edges, g.aeLevel p.1 < g.aeLevel p.2

instance (g : AEGraph) : Decidable (ValidLabeling g) :=
  inferInstanceAs (Decidable (∀ p ∈ g.edges, _))

/-- Result state of `addEdge` on the concrete input used by the C4 witness:
graph with the single edge `(0,1)`, identity labeling, adding `2 -> 0`. -/
def addEdgeWitnessOut : AEGraph :=
  ⟨(2, 0) :: [(0, 1)],
    fun w => if w ∈ reachSet [(0, 1)] 0 then
      (w : Int) + ((2 : Int) - (0 : Int) + 1) else (w : Int)⟩

/-- Adjacent edges of `w` in the edge list `E`: the edges having `w` as source
or as target (the iteration `forall_adj_edges(e, w)` of the source). -/
def adjEdges (E : List (Nat × Nat)) (w : Nat) : List (Nat × Nat) :=
  E.filter (fun e => decide (e.1 = w ∨ e.2 = w))

/-- In-degree counter seeded by the first two loops of
`ExtendedNestingGraph::moveDown`: for every vertex of the successor list, the
number of its incoming edges whose source is a different vertex of the
successor list (the source initializes the counter only on the successor list;
the algorithm reads it only there). -/
def moveDownDeg (E : List (Nat × Nat)) (succs : List Nat) (t : Nat) : Int :=
  ((E.filter (fun e => decide (e.2 = t ∧ e.1 ≠ t ∧ e.1 ∈ succs))).length : Int)

/-- Decrement step shared by the queue-seeding loop and the main loop of
`ExtendedNestingGraph::moveDown`: for one adjacent edge of `w`, decrement the
in-degree counter of the edge's target (when the target is not `w` itself) and
enqueue the target when its counter reaches zero. -/
def degDecStep (w : Nat) (p : (Nat → Int) × List Nat) (e : Nat × Nat) :
    (Nat → Int) × List Nat :=
  if e.2 ≠ w then
    let d := p.1 e.2 - 1
    (Function.update p.1 e.2 d, if d = 0 then p.2 ++ [e.2] else p.2)
  else p

/-- Main Kahn-style queue loop of `ExtendedNestingGraph::moveDown`: pop a
vertex `w`, take the maximum level over the sources of its incoming edges
(starting from 0), decrement the counters of the targets of its outgoing edges
enqueuing those that reach zero, and set `level[w]` to the maximum plus one. -/
def moveDownLoop (E : List (Nat × Nat)) :
    Nat → List Nat → (Nat → Int) → (Nat → Int) → (Nat → Int)
  | 0, _, _, level => level
  | _ + 1, [], _, level => level
  | fuel + 1, w :: Q, deg, level =>
    let maxLevel := (adjEdges E w).foldl
      (fun m e => if e.1 ≠ w then max m (level e.1) else m) 0
    let step := (adjEdges E w).foldl (degDecStep w) (deg, Q)
    moveDownLoop E fuel step.2 step.1 (Function.update level w (maxLevel + 1))

/-- Translation of `ExtendedNestingGraph::moveDown(node v, const SListPure<node>
&successors, NodeArray<int> &level)`: seed the in-degree counters on the
successor list, seed the queue from the adjacent edges of `v`, then run the
Kahn-style relaxation loop. -/
def moveDown (E : List (Nat × Nat)) (v : Nat) (succs : List Nat)
    (level : Nat → Int) : Nat → Int :=
  let init := (adjEdges E v).foldl (degDecStep v) (moveDownDeg E succs, [])
  moveDownLoop E (succs.length + E.length + 1) init.2 init.1 level

/-- State of the local crossing-reduction graph `G` built inside
`ExtendedNestingGraph::reduceCrossings`: its node count, its edge list, and
the level array (initialized to `-1` on every node). -/
structure RGraph where
  numNodes : Nat
  edges : List (Nat × Nat)
  level : Nat → Int

/-- Translation of `ExtendedNestingGraph::tryEdge(node u, node v, Graph &G,
NodeArray<int> &level)`: lazily materialize missing (`-1`) levels; when
`level[u] >= level[v]`, run the breadth-first search from `v` and reject the
edge (returning `false` and touching nothing) when `u` is reachable, otherwise
raise `level[v]` and propagate with `moveDown`; in every non-rejecting case add
the edge `u -> v` and return `true`. -/
def tryEdge (g : RGraph) (u v : Nat) : Bool × RGraph :=
  let n := g.numNodes
  if g.level u = -1 then
    if g.level v = -1 then
      (true, ⟨g.numNodes, (u, v) :: g.edges,
        Function.update (Function.update g.level v (n : Int)) u ((n : Int) - 1)⟩)
    else
      (true, ⟨g.numNodes, (u, v) :: g.edges,
        Function.update g.level u (g.level v - 1)⟩)
  else if g.level v = -1 then
    (true, ⟨g.numNodes, (u, v) :: g.edges,
      Function.update g.level v (g.level u + 1)⟩)
  else if g.level u ≥ g.level v then
    if reachable g.edges v u then (false, g)
    else
      (true, ⟨g.numNodes, (u, v) :: g.edges,
        moveDown g.edges v (reachSet g.edges v)
          (Function.update g.level v (g.level u + 1))⟩)
  else (true, ⟨g.numNodes, (u, v) :: g.edges, g.level⟩)

/-- Concrete input for the C9 witness: three nodes, edges `0 -> 1 -> 2`,
level equal to the node index. -/
def tryEdgeWitnessIn : RGraph := ⟨3, [(0, 1), (1, 2)], fun w => (w : Int)⟩

/-- Layer indices scanned by the re-ranking loop of
`ExtendedNestingGraph::computeRanking`: the integers strictly between `low`
and `high` in increasing order. -/
def rankScan (low high : Int) : List Int :=
  (List.range (high - low - 1).toNat).map (fun (k : Nat) => low + 1 + (k : Int))

/-- Test of the source loop `if(L.empty()) continue;`: the layer `i` is
non-empty when some vertex has old rank `i`. -/
def levelNonempty (nodes : List Nat) (r : Nat → Int) (i : Int) : Bool :=
  nodes.any (fun v => decide (r v = i))

/-- One step of the re-ranking loop of `ExtendedNestingGraph::computeRanking`:
when the scanned level `i` is non-empty, all vertices of old rank `i` receive
the running counter as their new rank and the counter is incremented (the
source updates `m_rank[v]` for exactly the vertices `v` collected in
`levels[i]`, which are those of old rank `i`). -/
def compactStep (nodes : List Nat) (r : Nat → Int) (acc : (Nat → Int) × Nat)
    (i : Int) : (Nat → Int) × Nat :=
  if levelNonempty nodes r i then
    (fun w => if r w = i then ((acc.2 : Nat) : Int) else acc.1 w, acc.2 + 1)
  else acc

/-- Compaction of the ranks (source: the trailing loop of
`ExtendedNestingGraph::computeRanking`, after the top and bottom nodes of the
root cluster are deleted): scan the levels strictly between `low` and `high` in
increasing order, skip the empty ones and re-rank the others consecutively from
zero; the second component is the final counter, stored as `m_numLayers`. -/
def compactRanks (nodes : List Nat) (r : Nat → Int) (low high : Int) :
    (Nat → Int) × Nat :=
  (rankScan low high).foldl (compactStep nodes r) (r, 0)

/-- Count of non-empty scanned levels strictly below `j`; this is the counter
value at the time level `j` is processed. -/
def compactCount (nodes : List Nat) (r : Nat → Int) (low high j : Int) : Nat :=
  ((rankScan low high).filter
    (fun i => levelNonempty nodes r i && decide (i < j))).length

/-- Concrete vertex list for the C5 witness. -/
def compactWitnessNodes : List Nat := [5, 6, 7]

/-- Concrete old-rank function for the C5 witness: vertex 5 on old rank 1,
vertices 6 and 7 on old rank 3 (old rank 2 is an empty gap). -/
def compactWitnessRank : Nat → Int := fun v => if v = 5 then 1 else 3

/-- Node kinds of an `LHTreeNode` (source enum with values `Compound`,
`Node`, `AuxNode`). -/
inductive LHKind where
  | Compound
  | Node
  | AuxNode
deriving DecidableEq, Repr

/-- Child entry of a compound `LHTreeNode`: an identifier together with the
child's type `m_type`. -/
structure LHChild where
  id : Nat
  type : LHKind
deriving DecidableEq, Repr

/-- Translation of `LHTreeNode::removeAuxChildren`: the compaction loop keeps,
in order, exactly the children whose type is not `AuxNode` (writing each kept
child at the next free slot `j`) and deletes the others; the final negative
`grow` trims the array to the kept entries. -/
def removeAuxChildren : List LHChild → List LHChild
  | [] => []
  | c :: rest =>
    if c.type = LHKind.AuxNode then removeAuxChildren rest
    else c :: removeAuxChildren rest

/-- Kind and index of the target tree node `m_v` of an adjacency entry:
`AdjacencyComparer` distinguishes compound targets (compared by their cluster
index) from leaf targets (compared by their node index); two target tree nodes
of one layer coincide exactly when kind and index agree. -/
structure AdjTarget where
  isCompound : Bool
  index : Nat
deriving DecidableEq, Repr

/-- Adjacency entry of a compound `LHTreeNode` (`LHTreeNode::Adjacency`): the
node `m_u` on the neighboring layer (identified by index), the child `m_v`,
and the weight `m_weight`. -/
structure Adjacency where
  u : Nat
  v : AdjTarget
  weight : Int
deriving DecidableEq, Repr

/-- Translation of `AdjacencyComparer::compare`: order by the index of `m_u`;
for equal `m_u`, compound targets come before leaf targets, compound targets
are ordered by cluster index and leaf targets by node index (for two equal
targets the comparer answers `+1`). -/
def adjCompare (x y : Adjacency) : Int :=
  if x.u < y.u then -1
  else if x.u = y.u then
    if x.v.isCompound then
      if ¬ y.v.isCompound then -1
      else if x.v.index < y.v.index then -1 else 1
    else if y.v.isCompound then 1
    else if x.v.index < y.v.index then -1 else 1
  else 1

/-- Sort key realized by `AdjacencyComparer`: the index of `m_u`, then the
classifier of `m_v` (compound before leaf), then the index of `m_v`. -/
def adjKey (x : Adjacency) : Nat × Nat × Nat :=
  (x.u, (if x.v.isCompound then 0 else 1), x.v.index)

/-- Lexicographic order on sort keys. -/
def keyLe (a b : Nat × Nat × Nat) : Prop :=
  a.1 < b.1 ∨ (a.1 = b.1 ∧ (a.2.1 < b.2.1 ∨ (a.2.1 = b.2.1 ∧ a.2.2 ≤ b.2.2)))

/-- Strict lexicographic order on sort keys. -/
def keyLt (a b : Nat × Nat × Nat) : Prop :=
  a.1 < b.1 ∨ (a.1 = b.1 ∧ (a.2.1 < b.2.1 ∨ (a.2.1 = b.2.1 ∧ a.2.2 < b.2.2)))

instance (a b : Nat × Nat × Nat) : Decidable (keyLe a b) :=
  inferInstanceAs (Decidable (_ ∨ _))

instance (a b : Nat × Nat × Nat) : Decidable (keyLt a b) :=
  inferInstanceAs (Decidable (_ ∨ _))

/-- Modelled from the spec: the order realized by the quicksort call of
`ENGLayer::simplifyAdjacencies` (`List::quicksort` is not among the sources);
per the spec adjacencies are sorted by `(index(u), classifier(v))`, where the
classifier groups compound before leaf children and breaks ties by index. -/
def adjBefore (x y : Adjacency) : Prop := keyLe (adjKey x) (adjKey y)

instance (x y : Adjacency) : Decidable (adjBefore x y) :=
  inferInstanceAs (Decidable (keyLe _ _))

instance : IsTotal Adjacency adjBefore :=
  ⟨fun x y => by unfold adjBefore keyLe; omega⟩

instance : IsTrans Adjacency adjBefore :=
  ⟨fun a b c h1 h2 => by unfold adjBefore keyLe at h1 h2 ⊢; omega⟩

/-- Coalescing loop of `ENGLayer::simplifyAdjacencies`: after sorting, runs of
consecutive entries with equal `(m_u, m_v)` are merged into a single entry
accumulating the weight (the source adds the next entry's weight into the
current one and deletes the next entry). -/
def coalesce : List Adjacency → List Adjacency
  | [] => []
  | [a] => [a]
  | a :: b :: rest =>
    if a.u = b.u ∧ a.v = b.v then
      coalesce (⟨a.u, a.v, a.weight + b.weight⟩ :: rest)
    else a :: coalesce (b :: rest)
termination_by l => l.length

/-- Translation of `ENGLayer::simplifyAdjacencies(List<LHTreeNode::Adjacency>&)`:
when the list is non-empty, sort it with `AdjacencyComparer` and coalesce runs
of equal `(m_u, m_v)` entries. -/
def simplifyAdjacencies (l : List Adjacency) : List Adjacency :=
  if l.isEmpty then l else coalesce (List.insertionSort adjBefore l)

/-- Layer hierarchy tree node: a leaf holds a graph vertex of the layer (with
the aux flag of `ClusterTopBottom` dummies), a compound node holds a cluster
with its ordered children. -/
inductive LHTree where
  | leaf (v : Nat) (isAux : Bool) : LHTree
  | comp (cluster : Nat) (children : List LHTree) : LHTree

mutual
/-- Translation of `ExtendedNestingGraph::assignPos`: in-order traversal of a
layer tree threading a counter, assigning consecutive positions to the leaves;
the collected assignments are returned as an association list. -/
def assignPos : LHTree → Nat → (List (Nat × Nat)) × Nat
  | LHTree.leaf v _, count => ([(v, count)], count + 1)
  | LHTree.comp _ cs, count => assignPosList cs count

/-- Traversal of the child list of a compound node by `assignPos`. -/
def assignPosList : List LHTree → Nat → (List (Nat × Nat)) × Nat
  | [], count => ([], count)
  | t :: ts, count =>
    let p := assignPos t count
    let q := assignPosList ts p.2
    (p.1 ++ q.1, q.2)
end

/-- Association-list lookup used to read a rebuilt position map. -/
def posLookup (m : List (Nat × Nat)) (w : Nat) : Option Nat :=
  match m with
  | [] => none
  | p :: rest => if p.1 = w then some p.2 else posLookup rest w

/-- State of the per-layer hierarchy trees: the current trees, the stored
snapshot, and the `m_pos` array. -/
structure LayerState where
  layers : List LHTree
  saved : Option (List LHTree)
  pos : Nat → Nat

/-- Modelled from the spec: `ExtendedNestingGraph::storeCurrentPos` calls
`ENGLayer::store` on every layer, which stores the child order of every
compound node (`LHTreeNode::store` is declared only in the header
`SugiyamaLayout.h`, not among the sources); the spec calls this snapshotting
every layer's child order. -/
def storeCurrentPos (s : LayerState) : LayerState :=
  { s with saved := some s.layers }

/-- Position assignments produced by running `assignPos` on every layer root
with a fresh counter per layer, as `ExtendedNestingGraph::restorePos` does. -/
def posMapOf (layers : List LHTree) : List (Nat × Nat) :=
  layers.foldl (fun acc t => acc ++ (assignPos t 0).1) []

/-- Modelled from the spec: `ExtendedNestingGraph::restorePos` re-materializes
every layer from the snapshot (`ENGLayer::restore` delegating to
`LHTreeNode::restore`, declared only in the header) and rebuilds `pos` by
running `assignPos` on each restored layer; vertices not on any layer keep
their old position value. -/
def restorePos (s : LayerState) : LayerState :=
  match s.saved with
  | none => s
  | some L =>
    { layers := L, saved := some L,
      pos := fun w => (posLookup (posMapOf L) w).getD (s.pos w) }

/-- Concrete state for the C7 witness: one layer holding a compound root with
two leaves, and the matching in-order `pos` array. -/
def layerWitnessState : LayerState :=
  { layers := [LHTree.comp 0 [LHTree.leaf 4 false, LHTree.leaf 9 false]],
    saved := none,
    pos := fun w => if w = 4 then 0 else if w = 9 then 1 else 7 }

/-- One split of `ExtendedNestingGraph::createDummyNodes` on the last chain
edge: `Graph::split(eH)` introduces the dummy `d`, turns the edge `(s, t)`
into `(s, d)` in place (so the chain entry holding it changes) and returns the
new edge `(d, t)`, which the loop appends to `m_copyEdge[e]`. -/
def splitStep (d : Nat) (chain : List (Nat × Nat)) : List (Nat × Nat) :=
  match chain.getLast? with
  | none => chain
  | some e => chain.dropLast ++ [(e.1, d), (d, e.2)]

/-- Number of dummies created for a copy edge of rank span `rv - ru`: one per
intermediate layer (the loop `for(int i = m_rank[uH]+1; i < m_rank[vH]; ++i)`;
a span below 2 creates none, matching the `continue` of the source). -/
def dummySpan (ru rv : Int) : Nat := (rv - ru - 1).toNat

/-- Chain of a copy edge after `k` iterations of the split loop; dummies are
numbered `base + 1, base + 2, ...` in creation order. -/
def chainAfter (uH vH base : Nat) : Nat → List (Nat × Nat)
  | 0 => [(uH, vH)]
  | k + 1 => splitStep (base + k + 1) (chainAfter uH vH base k)

/-- Rank assignments after `k` iterations of the split loop: the `k`-th
created dummy sits on layer `ru + k` (the loop writes `m_rank[eH->source()] = i`). -/
def rankAfter (base : Nat) (ru : Int) (rank : Nat → Int) : Nat → (Nat → Int)
  | 0 => rank
  | k + 1 => Function.update (rankAfter base ru rank k) (base + k + 1) (ru + 1 + (k : Int))

/-- Dummy materialization of one original edge (source:
`ExtendedNestingGraph::createDummyNodes`, first loop): starting from the chain
holding the single copy edge `(uH, vH)` with ranks `ru`, `rv`, split a dummy
off for every intermediate layer; returns the final chain and rank function. -/
def createDummyNodesEdge (uH vH base : Nat) (ru rv : Int) (rank : Nat → Int) :
    List (Nat × Nat) × (Nat → Int) :=
  (chainAfter uH vH base (dummySpan ru rv),
   rankAfter base ru rank (dummySpan ru rv))

/-- Chain-path predicate: the chain is a non-empty sequence of edges forming a
directed path from `s` to `t` (the head starts at `s`, consecutive edges are
linked head to tail, the last edge ends at `t`). -/
def IsChainPathFrom (chain : List (Nat × Nat)) (s t : Nat) : Prop :=
  chain.head?.map Prod.fst = some s ∧
  chain.getLast?.map Prod.snd = some t ∧
  List.Chain' (fun e1 e2 => e1.2 = e2.1) chain

instance (chain : List (Nat × Nat)) (s t : Nat) :
    Decidable (IsChainPathFrom chain s t) :=
  inferInstanceAs (Decidable (_ ∧ _ ∧ _))

/-- Closed form of the chain after `k` splits: first edge from `uH` to the
first dummy, unit edges between consecutive dummies, last edge into `vH`. -/
def chainClosed (uH vH base : Nat) (k : Nat) : List (Nat × Nat) :=
  if k = 0 then [(uH, vH)]
  else (uH, base + 1) ::
    ((List.range (k - 1)).map (fun j => (base + j + 1, base + j + 2))) ++
      [(base + k, vH)]

/-- Concrete rank function for the C1 witness: `uH = 0` on layer 0 and
`vH = 1` on layer 3. -/
def chainWitnessRank : Nat → Int := fun w => if w = 0 then 0 else 3

/-- Adjacency-edge phase of the `ExtendedNestingGraph` constructor: for every
original edge `e = (u, v)` it calls `addEdge(copy(u), copy(v), true)` and
records the returned edge as the first element of `chain(e)` (`m_copyEdge[e]`);
with the flag set, `addEdge` never returns null, so the null arm is dead. -/
def addAdjacencyEdges (g : AEGraph) (es : List (Nat × Nat)) :
    AEGraph × List (Nat × Nat) :=
  es.foldl (fun st e =>
    match addEdge st.1 e.1 e.2 true with
    | some (eH, g2) => (g2, st.2 ++ [eH])
    | none => st) (g, [])

/-- Levels seeded by `assignAeLevel` on the two-vertex example: the cluster
graph has vertices `a = 0`, `b = 1` in the root cluster with top node `2` and
bottom node `3`; the depth-first seeding gives `top = 0`, `a = 1`, `b = 2`,
`bottom = 3`. -/
def exAeLevel : Nat → Int :=
  fun w => if w = 2 then 0 else if w = 0 then 1 else if w = 1 then 2 else 3

/-- Extended nesting graph of the example after the containment edges (top to
each vertex, each vertex to bottom) are created. -/
def exG0 : AEGraph := ⟨[(2, 0), (0, 3), (2, 1), (1, 3)], exAeLevel⟩

/-- Original edges of the example: `e1 = (a, b)` and `e2 = (b, a)`. -/
def exEdges : List (Nat × Nat) := [(0, 1), (1, 0)]

/-- Ranks for the example satisfying the ranker contract (`rank(a) = 0`,
`rank(b) = 1`). -/
def exRankCE : Nat → Int := fun w => if w = 0 then 0 else 1

/-- Cluster-order edge step of the `ExtendedNestingGraph` constructor for one
original edge `e = (u, v)` with `cluster(u) ≠ cluster(v)` and LCA `c`: given
the two witness clusters `cFrom`, `cTo` of the LCA walk, it attempts
`addEdge(bottom(cFrom), top(cTo))` exactly when both witnesses differ from `c`
(the test `cFrom != c && cTo != c`); when `eH` stayed null (the attempt was
skipped or rejected for acyclicity) it attempts `addEdge(copy(u), top(cTo))`
and `addEdge(bottom(cFrom), copy(v))` instead.  All three calls use the
default `addAlways = false` (the default argument is declared in the header;
the spec states `allowAlways=false`).  Returns the final graph and the ordered
list of attempted edges. -/
def clusterOrderEdges (g : AEGraph) (c cFrom cTo botFrom topTo cu cv : Nat) :
    AEGraph × List (Nat × Nat) :=
  let step1 : Option (Nat × Nat) × AEGraph × List (Nat × Nat) :=
    if cFrom ≠ c ∧ cTo ≠ c then
      match addEdge g botFrom topTo false with
      | some (eH, g1) => (some eH, g1, [(botFrom, topTo)])
      | none => (none, g, [(botFrom, topTo)])
    else (none, g, [])
  match step1 with
  | (some _, g1, tr) => (g1, tr)
  | (none, g1, tr) =>
    let g2 := match addEdge g1 cu topTo false with
      | some (_, gg) => gg
      | none => g1
    let g3 := match addEdge g2 botFrom cv false with
      | some (_, gg) => gg
      | none => g2
    (g3, tr ++ [(cu, topTo), (botFrom, cv)])

/-- Graph for the C6 witness: empty edge set, identity levels. -/
def clusterOrderWitnessG : AEGraph := ⟨[], fun w => (w : Int)⟩

/-- Deterministic oracle view of the crossing-reduction sweeps: a traversal
maps the current order of the layer trees (an abstract token) to the returned
crossing count and the order it leaves behind; `permuteF` is the random
shuffle with its pseudo-random source fixed. -/
structure SweepModel where
  topDown : Nat → RCCrossings × Nat
  bottomUp : Nat → RCCrossings × Nat
  permuteF : Nat → Nat

/-- Orchestrator state of `SugiyamaLayout::reduceCrossings`: the current order
of the layer trees, the snapshot taken by `storeCurrentPos`, the best count
`m_nCrossingsCluster`, the count `nCrossingsOld` of the inner loop, and the
log of `(count, order)` pairs at every `storeCurrentPos` call. -/
structure OrchState where
  order : Nat
  savedOrder : Option Nat
  best : RCCrossings
  old : RCCrossings
  saves : List (RCCrossings × Nat)

/-- One traversal block of `SugiyamaLayout::reduceCrossings` (the source
repeats this logic verbatim for the top-down and the bottom-up traversal):
run the sweep; on improvement over `nCrossingsOld`, additionally store the
current position and update the best count when the global best improved
(breaking out of the inner loop when the best reached zero), then reset the
fail budget; on non-improvement decrement the fail budget.  Returns the new
state, the new fail budget, and the break flag. -/
def sweepBlock (f : Nat → RCCrossings × Nat) (fails : Nat)
    (st : OrchState) (nFails : Nat) : OrchState × Nat × Bool :=
  let r := f st.order
  let st1 := { st with order := r.2 }
  if RCCrossings.lt r.1 st1.old then
    if RCCrossings.lt r.1 st1.best then
      let st2 := { st1 with savedOrder := some r.2, best := r.1,
                             saves := st1.saves ++ [(r.1, r.2)] }
      if r.1.isZero then (st2, nFails, true)
      else ({ st2 with old := r.1 }, fails + 1, false)
    else ({ st1 with old := r.1 }, fails + 1, false)
  else (st1, nFails - 1, false)

/-- Inner do-while loop of `SugiyamaLayout::reduceCrossings`, driven by fuel:
one iteration runs the top-down block and then the bottom-up block, breaking
out when a block signals zero crossings, and repeats while the fail budget is
positive. -/
def innerLoop (M : SweepModel) (fails : Nat) :
    Nat → OrchState → Nat → OrchState
  | 0, st, _ => st
  | fuel + 1, st, nFails =>
    let r1 := sweepBlock M.topDown fails st nFails
    if r1.2.2 then r1.1
    else
      let r2 := sweepBlock M.bottomUp fails r1.1 r1.2.1
      if r2.2.2 then r2.1
      else if r2.2.1 > 0 then innerLoop M fails fuel r2.1 r2.2.1
      else r2.1

/-- Outer restart loop of `SugiyamaLayout::reduceCrossings` (`for(int i = 1; ; ++i)`):
run the inner loop, stop when the best count is zero or the run budget is
exhausted, otherwise permute all layers, reset the old count to infinity and
restart. -/
def outerLoop (M : SweepModel) (fails runs innerFuel : Nat) :
    Nat → Nat → OrchState → OrchState
  | 0, _, st => st
  | fuel + 1, i, st =>
    let st1 := innerLoop M fails innerFuel st (fails + 1)
    if st1.best.isZero = true ∨ i ≥ runs then st1
    else outerLoop M fails runs innerFuel fuel (i + 1)
      { st1 with order := M.permuteF st1.order, old := RCCrossings.infinity }

/-- Translation of `SugiyamaLayout::reduceCrossings(ExtendedNestingGraph &H)`:
initialize the best and the old count to infinity, run the restart loop, and
finally restore the stored order (`H.restorePos()`); the inner do-while is
bounded by a fuel parameter (the source loop terminates because every
improvement strictly decreases the old count, which the claims do not rely
on).  When no snapshot was ever stored the source restores an unstored state;
the model keeps the current order in that case. -/
def orchestrate (M : SweepModel) (runs fails innerFuel order0 : Nat) : OrchState :=
  let st0 : OrchState := { order := order0, savedOrder := none,
                           best := RCCrossings.infinity,
                           old := RCCrossings.infinity, saves := [] }
  let stF := outerLoop M fails runs innerFuel runs 1 st0
  { stF with order := (match stF.savedOrder with
                       | some o => o
                       | none => stF.order) }

/-- Invariant of the orchestrator: the save log is strictly decreasing in the
lexicographic order, and the best count and the stored order are those of the
last save (infinity and no snapshot before the first save). -/
def OrchInv (st : OrchState) : Prop :=
  List.Chain' (fun a b => RCCrossings.lt b.1 a.1) st.saves ∧
  ((st.saves = [] ∧ st.savedOrder = none ∧ st.best = RCCrossings.infinity) ∨
    (∃ l, st.saves.getLast? = some l ∧ st.best = l.1 ∧ st.savedOrder = some l.2))

/-- Sweep oracle for the C3 witness: the first traversal returns 5 crossings,
the second 3, later ones 3 again; orders advance with the sweep. -/
def witnessModel : SweepModel :=
  { topDown := fun o => (⟨0, 5⟩, o + 1),
    bottomUp := fun o => (⟨0, 3⟩, o + 1),
    permuteF := fun o => o + 10 }

theorem RCCrossings.le_total (a b : RCCrossings) :
    RCCrossings.le a b ∨ RCCrossings.le b a := by
  unfold RCCrossings.le
  rcases lt_trichotomy a.cnClusters b.cnClusters with h | h | h
  · exact Or.inl (Or.inl h)
  · rcases Int.le_total a.cnEdges b.cnEdges with h2 | h2
    · exact Or.inl (Or.inr ⟨h, h2⟩)
    · exact Or.inr (Or.inr ⟨h.symm, h2⟩)
  · exact Or.inr (Or.inl h)

theorem RCCrossings.le_trans {a b c : RCCrossings} (h1 : RCCrossings.le a b)
    (h2 : RCCrossings.le b c) : RCCrossings.le a c := by
  unfold RCCrossings.le at *
  rcases h1 with h1 | ⟨h1, h1e⟩
  · rcases h2 with h2 | ⟨h2, _⟩
    · exact Or.inl (lt_trans h1 h2)
    · exact Or.inl (h2 ▸ h1)
  · rcases h2 with h2 | ⟨h2, h2e⟩
    · exact Or.inl (h1 ▸ h2)
    · exact Or.inr ⟨h1.trans h2, Int.le_trans h1e h2e⟩

/-- C2: for every unordered pair of children the preference edge is oriented so
that its cost is the lexicographic minimum of the two pair costs and its reverse
cost the maximum, and the greedy placement attempts the preference edges in an
order that is a permutation of them sorted so that the edge with the largest
benefit `reverseCost - cost` of its preferred direction comes first; in
particular the first attempted edge has a weight at least that of every edge. -/
theorem orientPair_minMax_and_sortByWeight_sorted :
    (∀ j k cjk ckj, (orientPair j k cjk ckj).cr = RCCrossings.minLex cjk ckj ∧
        (orientPair j k cjk ckj).crReverse = RCCrossings.maxLex cjk ckj) ∧
    (∀ l : List RCEdge, (sortByWeight l).Perm l ∧
        List.Sorted rcEdgeBefore (sortByWeight l) ∧
        ∀ e ∈ l, ∀ h ∈ (sortByWeight l).head?, RCCrossings.le e.weight h.weight) := by
  constructor
  · intro j k cjk ckj
    unfold orientPair RCCrossings.minLex RCCrossings.maxLex
    by_cases h : RCCrossings.le cjk ckj <;> simp [h]
  · intro l
    refine ⟨List.perm_insertionSort _ l, List.sorted_insertionSort _ l, ?_⟩
    intro e he h hh
    have hmem : e ∈ sortByWeight l := (List.perm_insertionSort rcEdgeBefore l).mem_iff.mpr he
    cases hsort : sortByWeight l with
    | nil => rw [hsort] at hmem; cases hmem
    | cons a t =>
      rw [hsort] at hh
      simp only [List.head?] at hh
      cases hh
      rw [hsort] at hmem
      have hs := List.sorted_insertionSort rcEdgeBefore l
      rw [show List.insertionSort rcEdgeBefore l = sortByWeight l from rfl, hsort] at hs
      rcases List.mem_cons.mp hmem with rfl | hmemt
      · rcases RCCrossings.le_total e.weight e.weight with h | h <;> exact h
      · exact (List.sorted_cons.mp hs).1 e hmemt

/-- Witness for C2: the sort and head-maximality statement evaluated on a
concrete two-element list of preference edges. -/
theorem orientPair_minMax_and_sortByWeight_sorted_witness :
    RCCrossings.le (RCEdge.weight ⟨0, 1, ⟨0, 0⟩, ⟨0, 1⟩⟩)
      (RCEdge.weight ⟨1, 2, ⟨0, 0⟩, ⟨1, 0⟩⟩) := by
  have h := orientPair_minMax_and_sortByWeight_sorted.2
      [⟨0, 1, ⟨0, 0⟩, ⟨0, 1⟩⟩, ⟨1, 2, ⟨0, 0⟩, ⟨1, 0⟩⟩]
  exact h.2.2 ⟨0, 1, ⟨0, 0⟩, ⟨0, 1⟩⟩ (by decide)
    ⟨1, 2, ⟨0, 0⟩, ⟨1, 0⟩⟩ (by decide)

theorem satStep_subset (E : List (Nat × Nat)) (S : List Nat) : S ⊆ satStep E S :=
  List.subset_append_left _ _

theorem satStep_nodup (E : List (Nat × Nat)) {S : List Nat} (h : S.Nodup) :
    (satStep E S).Nodup := by
  unfold satStep
  refine List.Nodup.append h (List.nodup_dedup _) ?_
  intro a haS haT
  have := List.mem_dedup.mp haT
  rcases List.mem_map.mp this with ⟨e, heE, rfl⟩
  have hfe : e.1 ∈ S ∧ e.2 ∉ S := by simpa using List.of_mem_filter heE
  exact hfe.2 haS

theorem satStep_eq_iff (E : List (Nat × Nat)) (S : List Nat) :
    satStep E S = S ↔ ∀ e ∈ E, e.1 ∈ S → e.2 ∈ S := by
  unfold satStep
  constructor
  · intro h e heE h1
    by_contra h2
    have hmem : e.2 ∈ ((E.filter (fun e => decide (e.1 ∈ S ∧ e.2 ∉ S))).map Prod.snd).dedup := by
      refine List.mem_dedup.mpr (List.mem_map.mpr ⟨e, ?_, rfl⟩)
      exact List.mem_filter.mpr ⟨heE, decide_eq_true ⟨h1, h2⟩⟩
    have hlen := congrArg List.length h
    rw [List.length_append] at hlen
    have : ((E.filter (fun e => decide (e.1 ∈ S ∧ e.2 ∉ S))).map Prod.snd).dedup.length = 0 := by
      omega
    rw [List.length_eq_zero.mp this] at hmem
    cases hmem
  · intro h
    have : (E.filter (fun e => decide (e.1 ∈ S ∧ e.2 ∉ S))) = [] := by
      rw [List.filter_eq_nil_iff]
      intro e heE
      simp only [decide_eq_true_eq, not_and, not_not]
      exact h e heE
    rw [this]
    simp

theorem satStep_length_lt (E : List (Nat × Nat)) (S : List Nat)
    (h : satStep E S ≠ S) : S.length < (satStep E S).length := by
  unfold satStep at *
  rw [List.length_append]
  rcases Nat.eq_zero_or_pos ((E.filter (fun e => decide (e.1 ∈ S ∧ e.2 ∉ S))).map Prod.snd).dedup.length with h0 | h0
  · exact absurd (by rw [List.length_eq_zero.mp h0]; simp) h
  · omega

theorem satStep_subset_closure (E : List (Nat × Nat)) (v : Nat) (S : List Nat)
    (h : S ⊆ v :: E.map Prod.snd) : satStep E S ⊆ v :: E.map Prod.snd := by
  intro a ha
  rcases List.mem_append.mp ha with ha | ha
  · exact h ha
  · rcases List.mem_map.mp (List.mem_dedup.mp ha) with ⟨e, heE, rfl⟩
    exact List.mem_cons_of_mem _ (List.mem_map.mpr ⟨e, List.mem_of_mem_filter heE, rfl⟩)

theorem satStep_sound (E : List (Nat × Nat)) (v : Nat) (S : List Nat)
    (h : ∀ a ∈ S, Relation.ReflTransGen (stepRel E) v a) :
    ∀ a ∈ satStep E S, Relation.ReflTransGen (stepRel E) v a := by
  intro a ha
  rcases List.mem_append.mp ha with ha | ha
  · exact h a ha
  · rcases List.mem_map.mp (List.mem_dedup.mp ha) with ⟨e, heE, rfl⟩
    have hfe : e.1 ∈ S ∧ e.2 ∉ S := by simpa using List.of_mem_filter heE
    exact (h e.1 hfe.1).tail (List.mem_of_mem_filter heE)

theorem satRec_subset (E : List (Nat × Nat)) :
    ∀ (n : Nat) (S : List Nat), S ⊆ satRec E n S := by
  intro n
  induction n with
  | zero => intro S; exact fun a ha => ha
  | succ n ih =>
    intro S
    show S ⊆ (if satStep E S = S then S else satRec E n (satStep E S))
    split
    · exact fun a ha => ha
    · exact fun a ha => ih (satStep E S) (satStep_subset E S ha)

theorem satRec_fix (E : List (Nat × Nat)) (v : Nat) :
    ∀ (n : Nat) (S : List Nat), S.Nodup → S ⊆ v :: E.map Prod.snd →
      (v :: E.map Prod.snd).length < n + S.length →
      satStep E (satRec E n S) = satRec E n S := by
  intro n
  induction n with
  | zero =>
    intro S hnd hsub hlt
    have hle : S.length ≤ (v :: E.map Prod.snd).length :=
      (hnd.subperm hsub).length_le
    omega
  | succ n ih =>
    intro S hnd hsub hlt
    show satStep E (if satStep E S = S then S else satRec E n (satStep E S)) =
      (if satStep E S = S then S else satRec E n (satStep E S))
    split
    · next heq => rw [heq]
    · next hne =>
      refine ih (satStep E S) (satStep_nodup E hnd) (satStep_subset_closure E v S hsub) ?_
      have := satStep_length_lt E S hne
      omega

theorem satRec_sound (E : List (Nat × Nat)) (v : Nat) :
    ∀ (n : Nat) (S : List Nat),
      (∀ a ∈ S, Relation.ReflTransGen (stepRel E) v a) →
      ∀ a ∈ satRec E n S, Relation.ReflTransGen (stepRel E) v a := by
  intro n
  induction n with
  | zero => intro S h; exact h
  | succ n ih =>
    intro S h a ha
    revert ha
    show a ∈ (if satStep E S = S then S else satRec E n (satStep E S)) → _
    split
    · exact fun ha => h a ha
    · exact fun ha => ih (satStep E S) (satStep_sound E v S h) a ha

theorem reachSet_fix (E : List (Nat × Nat)) (v : Nat) :
    satStep E (reachSet E v) = reachSet E v := by
  refine satRec_fix E v (E.length + 1) [v] (List.nodup_singleton v) ?_ ?_
  · intro a ha
    rcases List.mem_singleton.mp ha with rfl
    exact List.mem_cons_self _ _
  · simp only [List.length_cons, List.length_map, List.length_singleton]
    omega

theorem mem_reachSet_self (E : List (Nat × Nat)) (v : Nat) : v ∈ reachSet E v :=
  satRec_subset E (E.length + 1) [v] (List.mem_singleton.mpr rfl)

theorem reachSet_closed (E : List (Nat × Nat)) (v : Nat) {a b : Nat}
    (ha : a ∈ reachSet E v) (hab : (a, b) ∈ E) : b ∈ reachSet E v :=
  (satStep_eq_iff E (reachSet E v)).mp (reachSet_fix E v) (a, b) hab ha

theorem reachSet_sound (E : List (Nat × Nat)) (v : Nat) {a : Nat}
    (ha : a ∈ reachSet E v) : Relation.ReflTransGen (stepRel E) v a := by
  refine satRec_sound E v (E.length + 1) [v] ?_ a ha
  intro b hb
  rcases List.mem_singleton.mp hb with rfl
  exact Relation.ReflTransGen.refl

theorem lt_of_transGen {g : AEGraph} (hval : ValidLabeling g) {a b : Nat}
    (h : Relation.TransGen (stepRel g.edges) a b) : g.aeLevel a < g.aeLevel b := by
  induction h with
  | single h => exact hval _ h
  | tail _ h ih => exact lt_trans ih (hval _ h)

theorem le_of_reflTransGen {g : AEGraph} (hval : ValidLabeling g) {a b : Nat}
    (h : Relation.ReflTransGen (stepRel g.edges) a b) :
    a = b ∨ g.aeLevel a < g.aeLevel b := by
  rcases Relation.reflTransGen_iff_eq_or_transGen.mp h with h | h
  · exact Or.inl h.symm
  · exact Or.inr (lt_of_transGen hval h)

/-- C4: if `aeLevel` is a valid topological labeling of the growing extended
nesting graph and `u ≠ v` (no self-loop is requested; the input graph is
acyclic), then after every call `addEdge u v addAlways` that returns a non-null
edge, `aeLevel` is again a valid topological labeling — every edge goes from a
vertex of strictly smaller level to one of strictly larger level — and in
particular the graph stays acyclic. -/
theorem addEdge_preserves_validLabeling (g : AEGraph) (u v : Nat) (b : Bool)
    (e : Nat × Nat) (g' : AEGraph) (hval : ValidLabeling g) (hne : u ≠ v)
    (h : addEdge g u v b = some (e, g')) :
    ValidLabeling g' ∧ ∀ a, ¬ Relation.TransGen (stepRel g'.edges) a a := by
  have main : ValidLabeling g' := by
    unfold addEdge at h
    split at h
    · next hlt =>
      rcases Option.some.injEq _ _ ▸ h with h'
      cases h'
      simp only at *
      intro p hp
      rcases List.mem_cons.mp hp with rfl | hp
      · exact hlt
      · exact hval p hp
    · split at h
      · next hnr =>
        have hu : u ∉ reachSet g.edges v := by
          intro hmem
          rw [reachable, decide_eq_true hmem] at hnr
          cases hnr
        have hv : v ∈ reachSet g.edges v := mem_reachSet_self g.edges v
        next hge =>
          have hge' : g.aeLevel v ≤ g.aeLevel u := le_of_not_lt hge
          rcases Option.some.injEq _ _ ▸ h with h'
          cases h'
          intro p hp
          simp only at *
          rcases List.mem_cons.mp hp with rfl | hp
          · -- the new edge (u, v)
            simp only [if_neg hu, if_pos hv]
            omega
          · have hstep := hval p hp
            by_cases h1 : p.1 ∈ reachSet g.edges v
            · have h2 : p.2 ∈ reachSet g.edges v := reachSet_closed g.edges v h1 hp
              simp only [if_pos h1, if_pos h2]
              omega
            · by_cases h2 : p.2 ∈ reachSet g.edges v
              · simp only [if_neg h1, if_pos h2]
                omega
              · simp only [if_neg h1, if_neg h2]
                exact hstep
      · split at h
        · next hr _ =>
          have hu : u ∈ reachSet g.edges v := by
            by_contra hmem
            rw [reachable, decide_eq_false hmem] at hr
            exact hr rfl
          have hpath := reachSet_sound g.edges v hu
          have hlt : g.aeLevel v < g.aeLevel u := by
            rcases le_of_reflTransGen hval hpath with h' | h'
            · exact absurd h'.symm hne
            · exact h'
          rcases Option.some.injEq _ _ ▸ h with h'
          cases h'
          intro p hp
          simp only at *
          rcases List.mem_cons.mp hp with rfl | hp
          · exact hlt
          · exact hval p hp
        · cases h
  refine ⟨main, ?_⟩
  intro a hcyc
  exact absurd (lt_of_transGen main hcyc) (lt_irrefl _)

/-- Witness for C4: the preserved validity evaluated on a concrete graph with
one edge `(0,1)`, identity labeling, after adding the edge `2 -> 0` (which
forces the successor shift). -/
theorem addEdge_preserves_validLabeling_witness :
    ValidLabeling addEdgeWitnessOut :=
  (addEdge_preserves_validLabeling ⟨[(0, 1)], fun w => (w : Int)⟩ 2 0 false
    (2, 0) addEdgeWitnessOut (by decide) (by decide) rfl).1

theorem reachSet_complete (E : List (Nat × Nat)) (v : Nat) {a : Nat}
    (h : Relation.ReflTransGen (stepRel E) v a) : a ∈ reachSet E v := by
  induction h with
  | refl => exact mem_reachSet_self E v
  | tail _ hstep ih => exact reachSet_closed E v ih hstep

/-- C9: if `tryEdge(u, v, G, level)` is called with `level[u] ≠ -1`,
`level[v] ≠ -1`, `level[u] ≥ level[v]`, and `u` reachable from `v` in `G`,
then it returns `false` and leaves the graph (node and edge sets) and the
entire level array unchanged: rejection is atomic. -/
theorem tryEdge_reject_atomic (g : RGraph) (u v : Nat)
    (h1 : g.level u ≠ -1) (h2 : g.level v ≠ -1) (h3 : g.level v ≤ g.level u)
    (h4 : Relation.ReflTransGen (stepRel g.edges) v u) :
    tryEdge g u v = (false, g) := by
  have hmem : u ∈ reachSet g.edges v := reachSet_complete g.edges v h4
  have hr : reachable g.edges v u = true := decide_eq_true hmem
  unfold tryEdge
  rw [if_neg h1, if_neg h2, if_pos h3, if_pos (by rw [hr])]

/-- Witness for C9: rejection of the cycle-creating edge `2 -> 0` on the
concrete graph `0 -> 1 -> 2`, with graph and levels returned untouched. -/
theorem tryEdge_reject_atomic_witness :
    tryEdge tryEdgeWitnessIn 2 0 = (false, tryEdgeWitnessIn) :=
  tryEdge_reject_atomic tryEdgeWitnessIn 2 0 (by decide) (by decide) (by decide)
    (Relation.ReflTransGen.tail
      (Relation.ReflTransGen.tail Relation.ReflTransGen.refl
        (show (0, 1) ∈ tryEdgeWitnessIn.edges by decide))
      (show (1, 2) ∈ tryEdgeWitnessIn.edges by decide))

/-- Auxiliary list lemma: filtering with a conjunction equals filtering twice. -/
theorem filter_and_eq {α : Type} (p q : α → Bool) (l : List α) :
    l.filter (fun a => p a && q a) = (l.filter p).filter q := by
  induction l with
  | nil => rfl
  | cons a t ih =>
    by_cases hp : p a <;> by_cases hq : q a <;>
      simp [List.filter_cons, hp, hq, ih]

/-- Auxiliary list lemma: a filter is monotone in the predicate. -/
theorem length_filter_mono {α : Type} {p q : α → Bool} (l : List α)
    (h : ∀ a, p a = true → q a = true) :
    (l.filter p).length ≤ (l.filter q).length := by
  induction l with
  | nil => exact Nat.le_refl _
  | cons a t ih =>
    by_cases hp : p a
    · rw [List.filter_cons_of_pos hp, List.filter_cons_of_pos (h a hp)]
      simpa using ih
    · rw [List.filter_cons_of_neg hp]
      by_cases hq : q a
      · rw [List.filter_cons_of_pos hq]
        exact le_trans ih (by simp)
      · rw [List.filter_cons_of_neg hq]
        exact ih

/-- Auxiliary list lemma: the filter gets strictly shorter in the presence of a
member for which the stronger predicate fails but the weaker one holds. -/
theorem length_filter_lt_of_witness {α : Type} {p q : α → Bool} {l : List α} {x : α}
    (h : ∀ a, p a = true → q a = true) (hx : x ∈ l) (hqx : q x = true)
    (hpx : p x = false) :
    (l.filter p).length < (l.filter q).length := by
  induction l with
  | nil => cases hx
  | cons a t ih =>
    rcases List.mem_cons.mp hx with rfl | hxt
    · rw [List.filter_cons_of_neg (by rw [hpx]; exact Bool.false_ne_true),
        List.filter_cons_of_pos hqx]
      exact Nat.lt_succ_of_le (length_filter_mono t h)
    · by_cases hp : p a
      · rw [List.filter_cons_of_pos hp, List.filter_cons_of_pos (h a hp)]
        simpa using ih hxt
      · rw [List.filter_cons_of_neg hp]
        by_cases hq : q a
        · rw [List.filter_cons_of_pos hq]
          exact lt_trans (ih hxt) (by simp)
        · rw [List.filter_cons_of_neg hq]
          exact ih hxt

/-- Auxiliary list lemma: in a strictly sorted list, the entries below the
`k`-th one are exactly the first `k` entries. -/
theorem sorted_filter_lt_get {l : List Int} (hs : List.Sorted (· < ·) l) :
    ∀ (k : Nat) (hk : k < l.length),
      (l.filter (fun x => decide (x < l.get ⟨k, hk⟩))).length = k := by
  induction l with
  | nil => intro k hk; cases hk
  | cons hd tl ih =>
    rcases List.sorted_cons.mp hs with ⟨hhd, htl⟩
    intro k hk
    cases k with
    | zero =>
      have : (hd :: tl).filter (fun x => decide (x < (hd :: tl).get ⟨0, hk⟩)) = [] := by
        rw [List.filter_eq_nil_iff]
        intro a ha
        rcases List.mem_cons.mp ha with rfl | hat
        · simp
        · have := hhd a hat
          simp only [List.get, decide_eq_true_eq]
          omega
      rw [this]
      rfl
    | succ k =>
      have hklt : k < tl.length := Nat.lt_of_succ_lt_succ hk
      have hgm : (hd :: tl).get ⟨k + 1, hk⟩ = tl.get ⟨k, hklt⟩ := rfl
      simp only [hgm]
      have hhd' : hd < tl.get ⟨k, hklt⟩ := hhd _ (List.get_mem tl k hklt)
      rw [List.filter_cons, if_pos (decide_eq_true hhd')]
      simp only [List.length_cons]
      rw [ih htl k hklt]

theorem mem_rankScan {low high i : Int} :
    i ∈ rankScan low high ↔ low < i ∧ i < high := by
  unfold rankScan
  simp only [List.mem_map, List.mem_range]
  constructor
  · rintro ⟨k, hk, rfl⟩
    omega
  · intro ⟨h1, h2⟩
    exact ⟨(i - low - 1).toNat, by omega, by omega⟩

theorem rankScan_sorted (low high : Int) :
    List.Sorted (· < ·) (rankScan low high) := by
  unfold rankScan
  rw [List.Sorted]
  simp only [List.pairwise_map]
  refine (List.pairwise_lt_range _).imp ?_
  intro a b h
  omega

theorem levelNonempty_of_mem {nodes : List Nat} {r : Nat → Int} {v : Nat}
    (hv : v ∈ nodes) : levelNonempty nodes r (r v) = true :=
  List.any_eq_true.mpr ⟨v, hv, decide_eq_true rfl⟩

theorem compactFold_counter (nodes : List Nat) (r : Nat → Int) :
    ∀ (L : List Int) (f : Nat → Int) (c : Nat),
      (L.foldl (compactStep nodes r) (f, c)).2 =
        c + (L.filter (levelNonempty nodes r)).length := by
  intro L
  induction L with
  | nil => intro f c; simp
  | cons hd tl ih =>
    intro f c
    rw [List.foldl_cons]
    by_cases hne : levelNonempty nodes r hd
    · rw [show compactStep nodes r (f, c) hd =
        (fun w => if r w = hd then ((c : Nat) : Int) else f w, c + 1) by
          unfold compactStep; rw [if_pos hne]]
      rw [ih _ (c + 1), List.filter_cons_of_pos hne]
      simp only [List.length_cons]
      omega
    · rw [show compactStep nodes r (f, c) hd = (f, c) by
        unfold compactStep; rw [if_neg hne]]
      rw [ih f c, List.filter_cons_of_neg hne]

theorem compactFold_untouched (nodes : List Nat) (r : Nat → Int) :
    ∀ (L : List Int) (f : Nat → Int) (c : Nat) (w : Nat), (∀ i ∈ L, r w ≠ i) →
      ((L.foldl (compactStep nodes r) (f, c)).1 w) = f w := by
  intro L
  induction L with
  | nil => intro f c w _; rfl
  | cons hd tl ih =>
    intro f c w h
    rw [List.foldl_cons]
    by_cases hne : levelNonempty nodes r hd
    · rw [show compactStep nodes r (f, c) hd =
        (fun w => if r w = hd then ((c : Nat) : Int) else f w, c + 1) by
          unfold compactStep; rw [if_pos hne]]
      rw [ih _ (c + 1) w (fun i hi => h i (List.mem_cons_of_mem _ hi))]
      exact if_neg (h hd (List.mem_cons_self _ _))
    · rw [show compactStep nodes r (f, c) hd = (f, c) by
        unfold compactStep; rw [if_neg hne]]
      exact ih f c w (fun i hi => h i (List.mem_cons_of_mem _ hi))

theorem compactFold_assigned (nodes : List Nat) (r : Nat → Int) (w : Nat)
    (hw : w ∈ nodes) :
    ∀ (L : List Int), List.Sorted (· < ·) L → ∀ (f : Nat → Int) (c : Nat), r w ∈ L →
      ((L.foldl (compactStep nodes r) (f, c)).1 w) =
        ((c + (L.filter
          (fun i => levelNonempty nodes r i && decide (i < r w))).length : Nat) : Int) := by
  intro L
  induction L with
  | nil => intro _ f c h; cases h
  | cons hd tl ih =>
    intro hs f c hmem
    rcases List.sorted_cons.mp hs with ⟨hhd, htl⟩
    rw [List.foldl_cons]
    by_cases hrw : r w = hd
    · have hne : levelNonempty nodes r hd = true := hrw ▸ levelNonempty_of_mem hw
      rw [show compactStep nodes r (f, c) hd =
        (fun x => if r x = hd then ((c : Nat) : Int) else f x, c + 1) by
          unfold compactStep; rw [if_pos hne]]
      have hnotin : ∀ i ∈ tl, r w ≠ i := by
        intro i hi
        have := hhd i hi
        omega
      rw [compactFold_untouched nodes r tl _ (c + 1) w hnotin]
      simp only [if_pos hrw]
      have hfilter : (hd :: tl).filter
          (fun i => levelNonempty nodes r i && decide (i < r w)) = [] := by
        rw [List.filter_eq_nil_iff]
        intro i hi
        rcases List.mem_cons.mp hi with rfl | hit
        · simp only [Bool.and_eq_true, decide_eq_true_eq, not_and]
          intro _
          omega
        · have := hhd i hit
          simp only [Bool.and_eq_true, decide_eq_true_eq, not_and]
          intro _
          omega
      rw [hfilter]
      simp
    · have hmemtl : r w ∈ tl := by
        rcases List.mem_cons.mp hmem with h | h
        · exact absurd h hrw
        · exact h
      have hlt : hd < r w := hhd _ hmemtl
      by_cases hne : levelNonempty nodes r hd
      · rw [show compactStep nodes r (f, c) hd =
          (fun x => if r x = hd then ((c : Nat) : Int) else f x, c + 1) by
            unfold compactStep; rw [if_pos hne]]
        rw [ih htl _ (c + 1) hmemtl]
        rw [List.filter_cons_of_pos (by rw [hne, decide_eq_true hlt]; rfl)]
        simp only [List.length_cons]
        push_cast
        ring
      · rw [show compactStep nodes r (f, c) hd = (f, c) by
          unfold compactStep; rw [if_neg hne]]
        rw [ih htl f c hmemtl]
        rw [List.filter_cons_of_neg (by
          intro hcontra
          exact hne (Bool.and_elim_left (by exact hcontra)))]

theorem compactRanks_char (nodes : List Nat) (r : Nat → Int) (low high : Int)
    {v : Nat} (hv : v ∈ nodes) (hb : low < r v ∧ r v < high) :
    (compactRanks nodes r low high).1 v =
      ((compactCount nodes r low high (r v) : Nat) : Int) := by
  unfold compactRanks compactCount
  simpa using compactFold_assigned nodes r v hv _ (rankScan_sorted low high) r 0
    (mem_rankScan.mpr hb)

theorem compactRanks_numLayers (nodes : List Nat) (r : Nat → Int) (low high : Int) :
    (compactRanks nodes r low high).2 =
      ((rankScan low high).filter (levelNonempty nodes r)).length := by
  unfold compactRanks
  simpa using compactFold_counter nodes r (rankScan low high) r 0

theorem compactCount_lt (nodes : List Nat) (r : Nat → Int) (low high : Int)
    {i j : Int} (hij : i < j) (hi : low < i ∧ i < high)
    (hne : levelNonempty nodes r i = true) :
    compactCount nodes r low high i < compactCount nodes r low high j := by
  unfold compactCount
  refine length_filter_lt_of_witness ?_ (mem_rankScan.mpr hi) ?_ ?_
  · intro a ha
    simp only [Bool.and_eq_true, decide_eq_true_eq] at *
    exact ⟨ha.1, by omega⟩
  · simp only [Bool.and_eq_true, decide_eq_true_eq]
    exact ⟨hne, hij⟩
  · simp [lt_irrefl]

theorem compactCount_lt_total (nodes : List Nat) (r : Nat → Int) (low high : Int)
    {v : Nat} (hv : v ∈ nodes) (hb : low < r v ∧ r v < high) :
    compactCount nodes r low high (r v) <
      ((rankScan low high).filter (levelNonempty nodes r)).length := by
  unfold compactCount
  refine length_filter_lt_of_witness ?_ (mem_rankScan.mpr hb)
    (levelNonempty_of_mem hv) ?_
  · intro a ha
    exact ((Bool.and_eq_true _ _).mp ha).1
  · simp [lt_irrefl]

/-- C5: after the compaction step of the ranking stage (every remaining
vertex's old rank lies strictly between the rank `low` of the deleted root-top
node and the rank `high` of the deleted root-bottom node), every vertex's new
rank lies in `{0, ..., numLayers - 1}`, every layer index in that range holds
at least one vertex, two vertices receive the same new rank exactly when they
had the same rank before compaction, and the relative order of distinct old
ranks is preserved. -/
theorem compactRanks_correct (nodes : List Nat) (r : Nat → Int) (low high : Int)
    (H : ∀ v ∈ nodes, low < r v ∧ r v < high) :
    (∀ v ∈ nodes, 0 ≤ (compactRanks nodes r low high).1 v ∧
        (compactRanks nodes r low high).1 v <
          ((compactRanks nodes r low high).2 : Int)) ∧
    (∀ k : Nat, k < (compactRanks nodes r low high).2 →
        ∃ v ∈ nodes, (compactRanks nodes r low high).1 v = (k : Int)) ∧
    (∀ u ∈ nodes, ∀ v ∈ nodes,
        ((compactRanks nodes r low high).1 u = (compactRanks nodes r low high).1 v ↔
          r u = r v)) ∧
    (∀ u ∈ nodes, ∀ v ∈ nodes,
        ((compactRanks nodes r low high).1 u < (compactRanks nodes r low high).1 v ↔
          r u < r v)) := by
  have hchar : ∀ v ∈ nodes, (compactRanks nodes r low high).1 v =
      ((compactCount nodes r low high (r v) : Nat) : Int) :=
    fun v hv => compactRanks_char nodes r low high hv (H v hv)
  have hnum := compactRanks_numLayers nodes r low high
  refine ⟨?_, ?_, ?_, ?_⟩
  · intro v hv
    rw [hchar v hv, hnum]
    exact ⟨Int.ofNat_nonneg _, Nat.cast_lt.mpr (compactCount_lt_total nodes r low high hv (H v hv))⟩
  · intro k hk
    rw [hnum] at hk
    have hi := List.get_mem ((rankScan low high).filter (levelNonempty nodes r)) k hk
    have hmf := List.mem_filter.mp hi
    rcases List.any_eq_true.mp hmf.2 with ⟨v, hv, hdec⟩
    have hrv : r v = ((rankScan low high).filter (levelNonempty nodes r)).get ⟨k, hk⟩ :=
      of_decide_eq_true hdec
    refine ⟨v, hv, ?_⟩
    rw [hchar v hv]
    congr 1
    unfold compactCount
    rw [show (fun i => levelNonempty nodes r i && decide (i < r v)) =
        (fun i => levelNonempty nodes r i &&
          (fun x => decide (x < r v)) i) from rfl]
    rw [filter_and_eq]
    rw [hrv]
    exact sorted_filter_lt_get
      ((rankScan_sorted low high).filter (levelNonempty nodes r)) k hk
  · intro u hu v hv
    rw [hchar u hu, hchar v hv, Nat.cast_inj]
    constructor
    · intro heq
      by_contra hne
      rcases lt_trichotomy (r u) (r v) with h | h | h
      · exact absurd heq
          (Nat.ne_of_lt (compactCount_lt nodes r low high h (H u hu)
            (levelNonempty_of_mem hu)))
      · exact hne h
      · exact absurd heq.symm
          (Nat.ne_of_lt (compactCount_lt nodes r low high h (H v hv)
            (levelNonempty_of_mem hv)))
    · intro heq
      rw [heq]
  · intro u hu v hv
    rw [hchar u hu, hchar v hv, Nat.cast_lt]
    constructor
    · intro hlt
      rcases lt_trichotomy (r u) (r v) with h | h | h
      · exact h
      · rw [h] at hlt
        exact absurd hlt (lt_irrefl _)
      · exact absurd (lt_trans hlt (compactCount_lt nodes r low high h (H v hv)
          (levelNonempty_of_mem hv))) (lt_irrefl _)
    · intro hlt
      exact compactCount_lt nodes r low high hlt (H u hu) (levelNonempty_of_mem hu)

/-- Witness for C5: on the concrete instance the two vertices of equal old
rank receive the same new rank. -/
theorem compactRanks_correct_witness :
    (compactRanks compactWitnessNodes compactWitnessRank 0 5).1 6 =
      (compactRanks compactWitnessNodes compactWitnessRank 0 5).1 7 :=
  ((compactRanks_correct compactWitnessNodes compactWitnessRank 0 5
    (by decide)).2.2.1 6 (by decide) 7 (by decide)).mpr (by decide)

/-- C10: `removeAuxChildren` removes exactly the `AuxNode`-typed children:
afterwards the child array consists of precisely the previously non-aux
children in their previous relative order, and the number of children
decreases by exactly the number of removed aux children. -/
theorem removeAuxChildren_removes_exactly_aux (cs : List LHChild) :
    removeAuxChildren cs = cs.filter (fun c => decide (c.type ≠ LHKind.AuxNode)) ∧
    (removeAuxChildren cs).length =
      cs.length - (cs.filter (fun c => decide (c.type = LHKind.AuxNode))).length := by
  have h1 : removeAuxChildren cs =
      cs.filter (fun c => decide (c.type ≠ LHKind.AuxNode)) := by
    induction cs with
    | nil => rfl
    | cons c rest ih =>
      by_cases hc : c.type = LHKind.AuxNode
      · rw [show removeAuxChildren (c :: rest) = removeAuxChildren rest by
          simp only [removeAuxChildren]; rw [if_pos hc]]
        rw [ih, List.filter_cons_of_neg (by simp [hc])]
      · rw [show removeAuxChildren (c :: rest) = c :: removeAuxChildren rest by
          simp only [removeAuxChildren]; rw [if_neg hc]]
        rw [ih, List.filter_cons_of_pos (by simp [hc])]
  refine ⟨h1, ?_⟩
  rw [h1]
  clear h1
  induction cs with
  | nil => rfl
  | cons c rest ih =>
    by_cases hc : c.type = LHKind.AuxNode
    · rw [List.filter_cons_of_neg (by simp [hc]), List.filter_cons_of_pos (by simp [hc])]
      simp only [List.length_cons]
      rw [ih]
      omega
    · rw [List.filter_cons_of_pos (by simp [hc]), List.filter_cons_of_neg (by simp [hc])]
      simp only [List.length_cons]
      rw [ih]
      have := List.length_filter_le (fun c => decide (c.type = LHKind.AuxNode)) rest
      omega

theorem keyLe_total (a b : Nat × Nat × Nat) : keyLe a b ∨ keyLe b a := by
  unfold keyLe
  omega

theorem keyLe_trans {a b c : Nat × Nat × Nat} (h1 : keyLe a b) (h2 : keyLe b c) :
    keyLe a c := by
  unfold keyLe at *
  omega

/-- Faithfulness of the modelled order to the source comparer:
`AdjacencyComparer::compare` answers negative exactly for a strictly
key-smaller first argument. -/
theorem adjCompare_neg_iff_keyLt (x y : Adjacency) :
    (adjCompare x y < 0 ↔ keyLt (adjKey x) (adjKey y)) := by
  unfold adjCompare keyLt adjKey
  split_ifs <;> simp_all

theorem coalesce_cons_head : ∀ (n : Nat) (l : List Adjacency), l.length ≤ n →
    ∀ b : Adjacency, ∃ w t, coalesce (b :: l) = ⟨b.u, b.v, w⟩ :: t := by
  intro n
  induction n with
  | zero =>
    intro l hl b
    have : l = [] := List.eq_nil_of_length_eq_zero (Nat.le_zero.mp hl)
    subst this
    exact ⟨b.weight, [], by simp [coalesce]⟩
  | succ n ih =>
    intro l hl b
    cases l with
    | nil => exact ⟨b.weight, [], by simp [coalesce]⟩
    | cons c rest =>
      by_cases hbc : b.u = c.u ∧ b.v = c.v
      · rw [show coalesce (b :: c :: rest) =
            coalesce (⟨b.u, b.v, b.weight + c.weight⟩ :: rest) by
          simp only [coalesce]; rw [if_pos hbc]]
        have hlen : rest.length ≤ n := by
          simp only [List.length_cons] at hl
          omega
        exact ih rest hlen ⟨b.u, b.v, b.weight + c.weight⟩
      · exact ⟨b.weight, coalesce (c :: rest), by
          simp only [coalesce]; rw [if_neg hbc]⟩

theorem coalesce_chain : ∀ (n : Nat) (l : List Adjacency), l.length ≤ n →
    List.Chain' (fun a b => ¬ (a.u = b.u ∧ a.v = b.v)) (coalesce l) := by
  intro n
  induction n with
  | zero =>
    intro l hl
    have : l = [] := List.eq_nil_of_length_eq_zero (Nat.le_zero.mp hl)
    subst this
    simp [coalesce]
  | succ n ih =>
    intro l hl
    cases l with
    | nil => simp [coalesce]
    | cons a l2 =>
      cases l2 with
      | nil => simp [coalesce]
      | cons b rest =>
        have hlen : rest.length + 1 ≤ n := by
          simp only [List.length_cons] at hl
          omega
        by_cases hab : a.u = b.u ∧ a.v = b.v
        · rw [show coalesce (a :: b :: rest) =
              coalesce (⟨a.u, a.v, a.weight + b.weight⟩ :: rest) by
            simp only [coalesce]; rw [if_pos hab]]
          exact ih _ (by simpa using hlen)
        · rw [show coalesce (a :: b :: rest) = a :: coalesce (b :: rest) by
            simp only [coalesce]; rw [if_neg hab]]
          refine List.chain'_cons'.mpr ⟨?_, ih (b :: rest) (by simpa using hlen)⟩
          intro y hy
          obtain ⟨w, t, hwt⟩ := coalesce_cons_head rest.length rest (le_refl _) b
          rw [hwt] at hy
          simp only [List.head?, Option.mem_def, Option.some.injEq] at hy
          subst hy
          intro hcon
          exact hab ⟨hcon.1, hcon.2⟩

theorem coalesce_mem_key : ∀ (n : Nat) (l : List Adjacency), l.length ≤ n →
    ∀ x ∈ coalesce l, ∃ y ∈ l, adjKey x = adjKey y := by
  intro n
  induction n with
  | zero =>
    intro l hl x hx
    have : l = [] := List.eq_nil_of_length_eq_zero (Nat.le_zero.mp hl)
    subst this
    simp [coalesce] at hx
  | succ n ih =>
    intro l hl x hx
    cases l with
    | nil => simp [coalesce] at hx
    | cons a l2 =>
      cases l2 with
      | nil =>
        simp only [coalesce, List.mem_singleton] at hx
        subst hx
        exact ⟨x, List.mem_singleton.mpr rfl, rfl⟩
      | cons b rest =>
        have hlen : rest.length + 1 ≤ n := by
          simp only [List.length_cons] at hl
          omega
        by_cases hab : a.u = b.u ∧ a.v = b.v
        · rw [show coalesce (a :: b :: rest) =
              coalesce (⟨a.u, a.v, a.weight + b.weight⟩ :: rest) by
            simp only [coalesce]; rw [if_pos hab]] at hx
          rcases ih _ (by simpa using hlen) x hx with ⟨y, hy, hkey⟩
          rcases List.mem_cons.mp hy with rfl | hyr
          · exact ⟨a, List.mem_cons_self _ _, hkey⟩
          · exact ⟨y, List.mem_cons_of_mem _ (List.mem_cons_of_mem _ hyr), hkey⟩
        · rw [show coalesce (a :: b :: rest) = a :: coalesce (b :: rest) by
            simp only [coalesce]; rw [if_neg hab]] at hx
          rcases List.mem_cons.mp hx with rfl | hxr
          · exact ⟨x, List.mem_cons_self _ _, rfl⟩
          · rcases ih (b :: rest) (by simpa using hlen) x hxr with ⟨y, hy, hkey⟩
            exact ⟨y, List.mem_cons_of_mem _ hy, hkey⟩

theorem coalesce_sorted : ∀ (n : Nat) (l : List Adjacency), l.length ≤ n →
    List.Sorted adjBefore l → List.Sorted adjBefore (coalesce l) := by
  intro n
  induction n with
  | zero =>
    intro l hl _
    have : l = [] := List.eq_nil_of_length_eq_zero (Nat.le_zero.mp hl)
    subst this
    simp [coalesce]
  | succ n ih =>
    intro l hl hs
    cases l with
    | nil => simp [coalesce]
    | cons a l2 =>
      cases l2 with
      | nil => simp [coalesce, List.sorted_singleton]
      | cons b rest =>
        have hlen : rest.length + 1 ≤ n := by
          simp only [List.length_cons] at hl
          omega
        rcases List.sorted_cons.mp hs with ⟨ha, hs2⟩
        by_cases hab : a.u = b.u ∧ a.v = b.v
        · rw [show coalesce (a :: b :: rest) =
              coalesce (⟨a.u, a.v, a.weight + b.weight⟩ :: rest) by
            simp only [coalesce]; rw [if_pos hab]]
          refine ih _ (by simpa using hlen) ?_
          refine List.sorted_cons.mpr ⟨?_, (List.sorted_cons.mp hs2).2⟩
          intro x hx
          exact ha x (List.mem_cons_of_mem _ hx)
        · rw [show coalesce (a :: b :: rest) = a :: coalesce (b :: rest) by
            simp only [coalesce]; rw [if_neg hab]]
          refine List.sorted_cons.mpr ⟨?_, ih (b :: rest) (by simpa using hlen) hs2⟩
          intro x hx
          rcases coalesce_mem_key (b :: rest).length (b :: rest) (le_refl _) x hx
            with ⟨y, hy, hkey⟩
          show keyLe (adjKey a) (adjKey x)
          rw [hkey]
          exact ha y hy

theorem coalesce_eq_self : ∀ (n : Nat) (l : List Adjacency), l.length ≤ n →
    List.Chain' (fun a b => ¬ (a.u = b.u ∧ a.v = b.v)) l → coalesce l = l := by
  intro n
  induction n with
  | zero =>
    intro l hl _
    have : l = [] := List.eq_nil_of_length_eq_zero (Nat.le_zero.mp hl)
    subst this
    simp [coalesce]
  | succ n ih =>
    intro l hl hc
    cases l with
    | nil => simp [coalesce]
    | cons a l2 =>
      cases l2 with
      | nil => simp [coalesce]
      | cons b rest =>
        have hlen : rest.length + 1 ≤ n := by
          simp only [List.length_cons] at hl
          omega
        have hab : ¬ (a.u = b.u ∧ a.v = b.v) := (List.chain'_cons.mp hc).1
        rw [show coalesce (a :: b :: rest) = a :: coalesce (b :: rest) by
          simp only [coalesce]; rw [if_neg hab]]
        rw [ih (b :: rest) (by simpa using hlen) (List.chain'_cons.mp hc).2]

/-- C8: `simplifyAdjacencies` is idempotent: a second call immediately after a
first changes nothing — same entries, same order, same weights. -/
theorem simplifyAdjacencies_idempotent (l : List Adjacency) :
    simplifyAdjacencies (simplifyAdjacencies l) = simplifyAdjacencies l := by
  cases l with
  | nil => rfl
  | cons a t =>
    have hne : (a :: t).isEmpty = false := rfl
    rw [show simplifyAdjacencies (a :: t) =
        coalesce (List.insertionSort adjBefore (a :: t)) by
      unfold simplifyAdjacencies; rw [hne]; rfl]
    cases hres : coalesce (List.insertionSort adjBefore (a :: t)) with
    | nil => rfl
    | cons r rs =>
      have hsorted : List.Sorted adjBefore (r :: rs) := by
        rw [← hres]
        exact coalesce_sorted _ _ (le_refl _) (List.sorted_insertionSort adjBefore _)
      have hchain : List.Chain' (fun x y => ¬ (x.u = y.u ∧ x.v = y.v)) (r :: rs) := by
        rw [← hres]
        exact coalesce_chain _ _ (le_refl _)
      show simplifyAdjacencies (r :: rs) = r :: rs
      rw [show simplifyAdjacencies (r :: rs) =
          coalesce (List.insertionSort adjBefore (r :: rs)) by
        unfold simplifyAdjacencies; rfl]
      rw [List.Sorted.insertionSort_eq hsorted]
      exact coalesce_eq_self _ _ (le_refl _) hchain

theorem posLookup_mem {m : List (Nat × Nat)} {w val : Nat}
    (h : posLookup m w = some val) : (w, val) ∈ m := by
  induction m with
  | nil => cases h
  | cons p rest ih =>
    unfold posLookup at h
    split at h
    · next heq =>
      rcases Option.some.injEq _ _ ▸ h with h'
      cases h'
      exact heq ▸ List.mem_cons_self _ _
    · exact List.mem_cons_of_mem _ (ih h)

/-- C7: for any state of the per-layer hierarchy trees whose `pos` array agrees
with the in-order numbering of the current trees (which holds whenever the
orchestrator calls these operations, since every sweep ends by re-running
`assignPos`), calling `storeCurrentPos` and then immediately `restorePos` is an
identity: the child order of every compound node on every layer is unchanged
and every vertex's `pos` value is identical to its value before the pair of
calls. -/
theorem storeCurrentPos_restorePos_id (s : LayerState)
    (hpos : ∀ p ∈ posMapOf s.layers, s.pos p.1 = p.2) :
    (restorePos (storeCurrentPos s)).layers = s.layers ∧
    ∀ w, (restorePos (storeCurrentPos s)).pos w = s.pos w := by
  unfold storeCurrentPos restorePos
  refine ⟨rfl, ?_⟩
  intro w
  cases hcase : posLookup (posMapOf s.layers) w with
  | none => simp [hcase]
  | some val =>
    simp only [hcase, Option.getD_some]
    exact (hpos (w, val) (posLookup_mem hcase)).symm

/-- Witness for C7: on the concrete state, store followed by restore returns
the same trees and the same position of vertex 9. -/
theorem storeCurrentPos_restorePos_id_witness :
    (restorePos (storeCurrentPos layerWitnessState)).layers =
        layerWitnessState.layers ∧
    (restorePos (storeCurrentPos layerWitnessState)).pos 9 =
        layerWitnessState.pos 9 := by
  have h := storeCurrentPos_restorePos_id layerWitnessState (by decide)
  exact ⟨h.1, h.2 9⟩

theorem eq_dropLast_concat_of_getLast {α : Type} {l : List α} {a : α}
    (h : l.getLast? = some a) : l = l.dropLast ++ [a] := by
  induction l with
  | nil => cases h
  | cons x t ih =>
    cases t with
    | nil =>
      simp only [List.getLast?_singleton, Option.some.injEq] at h
      subst h
      rfl
    | cons y u =>
      rw [List.getLast?_cons_cons] at h
      have hrec := ih h
      calc x :: y :: u = x :: ((y :: u).dropLast ++ [a]) := by rw [← hrec]
        _ = (x :: y :: u).dropLast ++ [a] := by
            rw [List.dropLast_cons₂, List.cons_append]

theorem chainAfter_invariant (uH vH base : Nat) :
    ∀ k : Nat,
      (∃ s, (chainAfter uH vH base k).getLast? = some (s, vH)) ∧
      (chainAfter uH vH base k).head?.map Prod.fst = some uH ∧
      List.Chain' (fun e1 e2 => e1.2 = e2.1) (chainAfter uH vH base k) := by
  intro k
  induction k with
  | zero => exact ⟨⟨uH, rfl⟩, rfl, List.chain'_singleton _⟩
  | succ k ih =>
    obtain ⟨⟨s, hlast⟩, hhead, hchain⟩ := ih
    have hdecomp := eq_dropLast_concat_of_getLast hlast
    have hstep : chainAfter uH vH base (k + 1) =
        (chainAfter uH vH base k).dropLast ++
          [(s, base + k + 1), (base + k + 1, vH)] := by
      show splitStep (base + k + 1) (chainAfter uH vH base k) = _
      unfold splitStep
      rw [hlast]
    have hchain2 : List.Chain' (fun e1 e2 => e1.2 = e2.1)
        ((chainAfter uH vH base k).dropLast ++ [(s, base + k + 1), (base + k + 1, vH)]) := by
      rw [hdecomp] at hchain
      rcases List.chain'_append.mp hchain with ⟨hc1, _, hlink⟩
      refine List.chain'_append.mpr ⟨hc1, ?_, ?_⟩
      · exact List.chain'_cons.mpr ⟨rfl, List.chain'_singleton _⟩
      · intro x hx y hy
        simp only [List.head?, Option.mem_def, Option.some.injEq] at hy
        subst hy
        exact hlink x hx (s, vH) rfl
    refine ⟨⟨base + k + 1, ?_⟩, ?_, ?_⟩
    · rw [hstep]
      rw [show (chainAfter uH vH base k).dropLast ++
          [(s, base + k + 1), (base + k + 1, vH)] =
          ((chainAfter uH vH base k).dropLast ++ [(s, base + k + 1)]) ++
            [(base + k + 1, vH)] by simp]
      exact List.getLast?_concat _
    · rw [hstep]
      cases hdl : (chainAfter uH vH base k).dropLast with
      | nil =>
        have : chainAfter uH vH base k = [(s, vH)] := by
          rw [hdecomp, hdl]
          rfl
        rw [this] at hhead
        simpa using hhead
      | cons h0 t0 =>
        have : (chainAfter uH vH base k).head? = some h0 := by
          rw [hdecomp, hdl]
          rfl
        rw [this] at hhead
        simpa using hhead
    · rw [hstep]
      exact hchain2

theorem chainAfter_eq_closed (uH vH base : Nat) :
    ∀ k : Nat, chainAfter uH vH base k = chainClosed uH vH base k := by
  intro k
  induction k with
  | zero => rfl
  | succ k ih =>
    show splitStep (base + k + 1) (chainAfter uH vH base k) = _
    rw [ih]
    cases k with
    | zero =>
      show splitStep (base + 0 + 1) [(uH, vH)] = _
      unfold splitStep chainClosed
      simp
    | succ m =>
      have hform : chainClosed uH vH base (m + 1) =
          ((uH, base + 1) ::
            ((List.range m).map (fun j => (base + j + 1, base + j + 2)))) ++
            [(base + (m + 1), vH)] := by
        unfold chainClosed
        rw [if_neg (Nat.succ_ne_zero m)]
        simp
      rw [hform]
      unfold splitStep
      rw [List.getLast?_concat, List.dropLast_concat]
      unfold chainClosed
      rw [if_neg (Nat.succ_ne_zero (m + 1))]
      have hrange : List.range (m + 2 - 1) = List.range m ++ [m] := by
        rw [show m + 2 - 1 = m + 1 by omega, List.range_succ]
      rw [hrange, List.map_append]
      simp only [List.map_cons, List.map_nil]
      rw [show base + (m + 1) = base + m + 1 by omega,
        show base + (m + 2) = base + (m + 1) + 1 by omega]
      simp only [List.cons_append, List.append_assoc]
      rw [show base + m + 1 + 1 = base + (m + 1) + 1 by omega]
      rfl

theorem rankAfter_eval (base : Nat) (ru : Int) (rank : Nat → Int) :
    ∀ (k : Nat) (w : Nat),
      rankAfter base ru rank k w =
        if ∃ j, j < k ∧ w = base + j + 1 then ru + ((w - base : Nat) : Int)
        else rank w := by
  intro k
  induction k with
  | zero =>
    intro w
    rw [if_neg (by rintro ⟨j, hj, _⟩; omega)]
    rfl
  | succ k ih =>
    intro w
    show Function.update (rankAfter base ru rank k) (base + k + 1)
      (ru + 1 + (k : Int)) w = _
    by_cases hw : w = base + k + 1
    · subst hw
      rw [Function.update_same, if_pos ⟨k, Nat.lt_succ_self k, rfl⟩]
      rw [show (base + k + 1 - base : Nat) = k + 1 by omega]
      push_cast
      ring
    · rw [Function.update_noteq hw, ih w]
      by_cases hx : ∃ j, j < k ∧ w = base + j + 1
      · rcases hx with ⟨j, hj, he⟩
        rw [if_pos ⟨j, hj, he⟩, if_pos ⟨j, Nat.lt_succ_of_lt hj, he⟩]
      · rw [if_neg hx, if_neg ?_]
        rintro ⟨j, hj, he⟩
        rcases Nat.lt_succ_iff_lt_or_eq.mp hj with h | rfl
        · exact hx ⟨j, h, he⟩
        · exact hw he

theorem mem_chainClosed {uH vH base : Nat} {k : Nat} (hk : k ≠ 0) {e : Nat × Nat}
    (he : e ∈ chainClosed uH vH base k) :
    e = (uH, base + 1) ∨
      (∃ j, j + 1 < k ∧ e = (base + j + 1, base + j + 2)) ∨
      e = (base + k, vH) := by
  unfold chainClosed at he
  rw [if_neg hk] at he
  rcases List.mem_cons.mp he with rfl | he2
  · exact Or.inl rfl
  · rcases List.mem_append.mp he2 with he3 | he4
    · rcases List.mem_map.mp he3 with ⟨j, hj, rfl⟩
      have := List.mem_range.mp hj
      exact Or.inr (Or.inl ⟨j, by omega, rfl⟩)
    · rcases List.mem_singleton.mp he4 with rfl
      exact Or.inr (Or.inr rfl)

/-- C1 (amended): for every original edge whose copy edge currently runs from
`uH` to `vH` (`uH` and `vH` are the ENG copies of the edge's endpoints, in the
direction possibly reversed by the acyclicity-preserving adder), after dummy
materialization the chain is a directed path from `uH` to `vH` and the ranks
of consecutive vertices along the chain differ by exactly one. -/
theorem createDummyNodesEdge_chain (uH vH base : Nat) (ru rv : Int)
    (rank : Nat → Int) (hspan : ru < rv)
    (hu : rank uH = ru) (hv : rank vH = rv)
    (hbase : ∀ j : Nat, j < dummySpan ru rv → base + j + 1 ≠ uH ∧ base + j + 1 ≠ vH) :
    IsChainPathFrom (createDummyNodesEdge uH vH base ru rv rank).1 uH vH ∧
    ∀ e ∈ (createDummyNodesEdge uH vH base ru rv rank).1,
      (createDummyNodesEdge uH vH base ru rv rank).2 e.2 =
        (createDummyNodesEdge uH vH base ru rv rank).2 e.1 + 1 := by
  have hpath : IsChainPathFrom (createDummyNodesEdge uH vH base ru rv rank).1 uH vH := by
    obtain ⟨⟨s, hlast⟩, hhead, hchain⟩ :=
      chainAfter_invariant uH vH base (dummySpan ru rv)
    exact ⟨hhead, by rw [show (createDummyNodesEdge uH vH base ru rv rank).1 =
      chainAfter uH vH base (dummySpan ru rv) from rfl, hlast]; rfl, hchain⟩
  refine ⟨hpath, ?_⟩
  have hk : rv = ru + (dummySpan ru rv : Int) + 1 := by
    unfold dummySpan
    omega
  set k := dummySpan ru rv with hkdef
  have hRu : rankAfter base ru rank k uH = ru := by
    rw [rankAfter_eval, if_neg ?_, hu]
    rintro ⟨j, hj, he⟩
    exact (hbase j hj).1 he.symm
  have hRv : rankAfter base ru rank k vH = rv := by
    rw [rankAfter_eval, if_neg ?_, hv]
    rintro ⟨j, hj, he⟩
    exact (hbase j hj).2 he.symm
  have hRd : ∀ j : Nat, j < k →
      rankAfter base ru rank k (base + j + 1) = ru + (j : Int) + 1 := by
    intro j hj
    rw [rankAfter_eval, if_pos ⟨j, hj, rfl⟩,
      show (base + j + 1 - base : Nat) = j + 1 by omega]
    push_cast
    ring
  intro e he
  rw [show (createDummyNodesEdge uH vH base ru rv rank).1 =
    chainAfter uH vH base k from rfl, chainAfter_eq_closed] at he
  show rankAfter base ru rank k e.2 = rankAfter base ru rank k e.1 + 1
  by_cases hk0 : k = 0
  · rw [hk0] at he
    unfold chainClosed at he
    rw [if_pos rfl] at he
    rcases List.mem_singleton.mp he with rfl
    simp only
    rw [hRu, hRv, hk, hk0]
    push_cast
    ring
  · rcases mem_chainClosed hk0 he with rfl | ⟨j, hj, rfl⟩ | rfl
    · simp only
      rw [hRu, hRd 0 (Nat.pos_of_ne_zero hk0)]
      push_cast
      ring
    · simp only
      rw [hRd j (by omega), show base + j + 2 = base + (j + 1) + 1 by omega,
        hRd (j + 1) (by omega)]
      push_cast
      ring
    · simp only
      rw [hRv, show base + k = base + (k - 1) + 1 by omega,
        hRd (k - 1) (by omega), hk]
      have : ((k - 1 : Nat) : Int) = (k : Int) - 1 := by omega
      rw [this]
      ring

/-- Witness for C1 (amended): a copy edge of span 3 gets two dummies; the
resulting chain is a directed path from `0` to `1` with unit rank steps. -/
theorem createDummyNodesEdge_chain_witness :
    IsChainPathFrom (createDummyNodesEdge 0 1 4 0 3 chainWitnessRank).1 0 1 :=
  (createDummyNodesEdge_chain 0 1 4 0 3 chainWitnessRank (by decide)
    (by decide) (by decide) (by decide)).1

/-- Counterexample to C1 as stated: in the extended nesting graph of the
two-vertex cluster graph with original edges `e1 = (a, b)` and `e2 = (b, a)`
(ENG copies `a = 0`, `b = 1`), the acyclicity-preserving adder reverses `e2`,
so its recorded chain edge is `(0, 1)`; after dummy materialization (span 1,
no dummies) the chain of `e2` is the single edge from `copy(a) = copy(v)` to
`copy(b) = copy(u)` and is not a directed path from the ENG copy of `u = b` to
the ENG copy of `v = a`. -/
theorem chain_reversed_counterexample :
    ((addAdjacencyEdges exG0 exEdges).2)[1]? = some (0, 1) ∧
    ¬ IsChainPathFrom (createDummyNodesEdge 0 1 4 0 1 exRankCE).1 1 0 := by
  decide

/-- C6: during ENG construction, for an original edge whose endpoints lie in
different clusters with LCA `c`, the edge `bottom(cFrom) -> top(cTo)` is
attempted exactly when both witness clusters differ from `c`, and the two
relaxed edges `copy(u) -> top(cTo)` and `bottom(cFrom) -> copy(v)` are
attempted exactly when that attempt yielded no edge — because a witness
equalled `c` (not a proper descendant) or because the add was rejected for
acyclicity.  The hypotheses record that the boundary nodes involved are
pairwise distinct vertices of the ENG. -/
theorem clusterOrderEdges_attempts (g : AEGraph) (c cFrom cTo botFrom topTo cu cv : Nat)
    (h1 : botFrom ≠ cu) (h2 : topTo ≠ cv) :
    ((botFrom, topTo) ∈ (clusterOrderEdges g c cFrom cTo botFrom topTo cu cv).2 ↔
      (cFrom ≠ c ∧ cTo ≠ c)) ∧
    (((cu, topTo) ∈ (clusterOrderEdges g c cFrom cTo botFrom topTo cu cv).2 ∧
        (botFrom, cv) ∈ (clusterOrderEdges g c cFrom cTo botFrom topTo cu cv).2) ↔
      (¬(cFrom ≠ c ∧ cTo ≠ c) ∨ addEdge g botFrom topTo false = none)) := by
  by_cases hcond : cFrom ≠ c ∧ cTo ≠ c
  · cases hadd : addEdge g botFrom topTo false with
    | some r =>
      have htr : (clusterOrderEdges g c cFrom cTo botFrom topTo cu cv).2 =
          [(botFrom, topTo)] := by
        unfold clusterOrderEdges
        rw [if_pos hcond, hadd]
      rw [htr]
      constructor
      · simp [hcond]
      · constructor
        · rintro ⟨hmem, _⟩
          have heq := List.mem_singleton.mp hmem
          have hfst : cu = botFrom := congrArg Prod.fst heq
          exact absurd hfst.symm h1
        · rintro (hc | hn)
          · exact absurd hcond hc
          · exact Option.noConfusion hn
    | none =>
      have htr : (clusterOrderEdges g c cFrom cTo botFrom topTo cu cv).2 =
          [(botFrom, topTo), (cu, topTo), (botFrom, cv)] := by
        unfold clusterOrderEdges
        rw [if_pos hcond, hadd]
        rfl
      rw [htr]
      constructor
      · simp [hcond]
      · simp [hcond]
  · have htr : (clusterOrderEdges g c cFrom cTo botFrom topTo cu cv).2 =
        [(cu, topTo), (botFrom, cv)] := by
      unfold clusterOrderEdges
      rw [if_neg hcond]
      rfl
    rw [htr]
    constructor
    · constructor
      · intro hmem
        rcases List.mem_cons.mp hmem with heq | hmem2
        · have hfst : botFrom = cu := congrArg Prod.fst heq
          exact absurd hfst h1
        · have heq := List.mem_singleton.mp hmem2
          have hsnd : topTo = cv := congrArg Prod.snd heq
          exact absurd hsnd h2
      · intro hc
        exact absurd hc hcond
    · simp [hcond]

/-- Witness for C6: with both witness clusters differing from the LCA, the
cluster-order edge `bottom(cFrom) -> top(cTo)` is among the attempts. -/
theorem clusterOrderEdges_attempts_witness :
    (10, 11) ∈ (clusterOrderEdges clusterOrderWitnessG 0 1 2 10 11 12 13).2 :=
  ((clusterOrderEdges_attempts clusterOrderWitnessG 0 1 2 10 11 12 13
    (by decide) (by decide)).1).mpr ⟨by decide, by decide⟩

theorem chain'_concat_of_lt {L : List (RCCrossings × Nat)} {x : RCCrossings × Nat}
    (hc : List.Chain' (fun a b => RCCrossings.lt b.1 a.1) L)
    (hlink : ∀ l, L.getLast? = some l → RCCrossings.lt x.1 l.1) :
    List.Chain' (fun a b => RCCrossings.lt b.1 a.1) (L ++ [x]) := by
  refine List.chain'_append.mpr ⟨hc, List.chain'_singleton _, ?_⟩
  intro a ha b hb
  simp only [List.head?, Option.mem_def, Option.some.injEq] at hb
  subst hb
  exact hlink a ha

theorem sweepBlock_inv (f : Nat → RCCrossings × Nat) (fails : Nat)
    (st : OrchState) (nFails : Nat) (h : OrchInv st) :
    OrchInv (sweepBlock f fails st nFails).1 := by
  obtain ⟨hchain, hlast⟩ := h
  unfold sweepBlock
  dsimp only
  split
  · split
    · next hbest =>
      have hsave : OrchInv { st with order := (f st.order).2,
                                     savedOrder := some (f st.order).2,
                                     best := (f st.order).1,
                                     saves := st.saves ++
                                       [((f st.order).1, (f st.order).2)] } := by
        constructor
        · refine chain'_concat_of_lt hchain ?_
          intro l hl
          rcases hlast with ⟨hnil, _, hinf⟩ | ⟨l2, hl2, hb, _⟩
          · rw [hnil] at hl
            cases hl
          · rw [hl2] at hl
            cases hl
            rw [← hb]
            exact hbest
        · refine Or.inr ⟨((f st.order).1, (f st.order).2), ?_, rfl, rfl⟩
          exact List.getLast?_concat _
      split
      · exact hsave
      · exact ⟨hsave.1, hsave.2⟩
    · exact ⟨hchain, hlast⟩
  · exact ⟨hchain, hlast⟩

theorem innerLoop_inv (M : SweepModel) (fails : Nat) :
    ∀ (fuel : Nat) (st : OrchState) (nFails : Nat), OrchInv st →
      OrchInv (innerLoop M fails fuel st nFails) := by
  intro fuel
  induction fuel with
  | zero => intro st nFails h; exact h
  | succ fuel ih =>
    intro st nFails h
    show OrchInv (innerLoop M fails (fuel + 1) st nFails)
    unfold innerLoop
    dsimp only
    split
    · exact sweepBlock_inv _ _ _ _ h
    · split
      · exact sweepBlock_inv _ _ _ _ (sweepBlock_inv _ _ _ _ h)
      · split
        · exact ih _ _ (sweepBlock_inv _ _ _ _ (sweepBlock_inv _ _ _ _ h))
        · exact sweepBlock_inv _ _ _ _ (sweepBlock_inv _ _ _ _ h)

theorem outerLoop_inv (M : SweepModel) (fails runs innerFuel : Nat) :
    ∀ (fuel i : Nat) (st : OrchState), OrchInv st →
      OrchInv (outerLoop M fails runs innerFuel fuel i st) := by
  intro fuel
  induction fuel with
  | zero => intro i st h; exact h
  | succ fuel ih =>
    intro i st h
    unfold outerLoop
    dsimp only
    split
    · exact innerLoop_inv M fails innerFuel st (fails + 1) h
    · refine ih (i + 1) _ ?_
      exact ⟨(innerLoop_inv M fails innerFuel st (fails + 1) h).1,
        (innerLoop_inv M fails innerFuel st (fails + 1) h).2⟩

/-- C3: across one run of the orchestrator, the sequence of crossing counts at
which the current order is saved (the `storeCurrentPos` calls) is strictly
decreasing in the lexicographic order on `(cnClusters, cnEdges)` — so the best
count never increases across accepted improvements — and on termination the
final best count and the restored order are exactly those of the last save. -/
theorem orchestrate_saves_strict_and_restores (M : SweepModel)
    (runs fails innerFuel order0 : Nat) :
    List.Chain' (fun a b => RCCrossings.lt b.1 a.1)
      (orchestrate M runs fails innerFuel order0).saves ∧
    ∀ l, (orchestrate M runs fails innerFuel order0).saves.getLast? = some l →
      (orchestrate M runs fails innerFuel order0).best = l.1 ∧
      (orchestrate M runs fails innerFuel order0).order = l.2 := by
  have hinv : OrchInv (outerLoop M fails runs innerFuel runs 1
      { order := order0, savedOrder := none,
        best := RCCrossings.infinity, old := RCCrossings.infinity, saves := [] }) :=
    outerLoop_inv M fails runs innerFuel runs 1 _
      ⟨List.chain'_nil, Or.inl ⟨rfl, rfl, rfl⟩⟩
  obtain ⟨hchain, hlast⟩ := hinv
  constructor
  · exact hchain
  · intro l hl
    rcases hlast with ⟨hnil, _, _⟩ | ⟨l2, hl2, hb, hso⟩
    · rw [show (orchestrate M runs fails innerFuel order0).saves =
        (outerLoop M fails runs innerFuel runs 1
          { order := order0, savedOrder := none, best := RCCrossings.infinity,
            old := RCCrossings.infinity, saves := [] }).saves from rfl, hnil] at hl
      cases hl
    · have hsame : (orchestrate M runs fails innerFuel order0).saves.getLast? =
          some l2 := hl2
      rw [hsame] at hl
      have heq : l2 = l := by injection hl
      subst heq
      refine ⟨hb, ?_⟩
      show (match (outerLoop M fails runs innerFuel runs 1
          { order := order0, savedOrder := none, best := RCCrossings.infinity,
            old := RCCrossings.infinity, saves := [] }).savedOrder with
        | some o => o
        | none => (outerLoop M fails runs innerFuel runs 1
          { order := order0, savedOrder := none, best := RCCrossings.infinity,
            old := RCCrossings.infinity, saves := [] }).order) = l2.2
      rw [hso]

/-- Witness for C3: on the concrete oracle the orchestrator ends with the best
count and order of its last save. -/
theorem orchestrate_saves_strict_and_restores_witness :
    (orchestrate witnessModel 1 0 3 0).best = ⟨0, 3⟩ ∧
    (orchestrate witnessModel 1 0 3 0).order = 2 := by
  have h := (orchestrate_saves_strict_and_restores witnessModel 1 0 3 0).2
    (⟨0, 3⟩, 2) (by decide)
  exact h
